import Mathlib

/-!
# Verification of the `trueskill` rating library

This file is a shallow embedding, over `ℝ`, of the trueskill repository:

* `Score`, from `lib.rs`.
* `rating.rs`: `Rating` with `mean`/`variance` fields, addition and summation.
* `utils.rs`: the standard normal `pdf`, `cdf` and `inverse_cdf`, written — as in
  the source — through the (complementary) error function.  The error function
  itself comes from the external `statrs` crate and is modelled by its
  mathematical definition `erf x = 2/√π ∫₀ˣ exp (-t²) dt`; `erfc_inv` is the
  (classical) inverse of `erfc`.
* `trueskill.rs`: `TrueSkill` with `update`, `quality`, `vw`, `vw_draw`,
  `draw_margin`.  The in-place slice mutation of the source is rendered as a
  function returning the pair of new rating lists, element for element.
* `simple_trueskill.rs`: `SimpleTrueSkill` (no draw margin).
* The generic-float variant in namespace `Gen`: `update.rs` (free functions
  `v`, `w`, `v_draw`, `w_draw`, `draw_margin`, `update` over mu/sigma ratings)
  and `matchmaking.rs` (`quality`, `balance`).  The `statrs` standard normal
  `pdf`/`cdf`/`inverse_cdf` used there are the same mathematical functions as
  the ones in `utils.rs` and are modelled by them.

Real division by zero is `0` in Lean; where the floating-point source would
produce `NaN`/`Inf` the real model produces the corresponding total value.
-/

open Real Set Filter

open scoped Classical Topology

noncomputable section

/-- Outcome of a match from team1's perspective (`Score` in `lib.rs`). -/
inductive Score
  | Win
  | Loss
  | Draw
deriving DecidableEq

/-- A rating as in `rating.rs`: a Gaussian skill belief with `mean` and `variance`. -/
structure Rating where
  mean : ℝ
  variance : ℝ
deriving DecidableEq

instance : Add Rating :=
  ⟨fun a b => ⟨a.mean + b.mean, a.variance + b.variance⟩⟩

@[simp] theorem Rating.add_def (a b : Rating) :
    a + b = ⟨a.mean + b.mean, a.variance + b.variance⟩ := rfl

/-- Summation `Rating::from_iter` / `Sum` in `rating.rs`: fold with `+` from `Rating::new(0, 0)`. -/
def Rating.sum (l : List Rating) : Rating :=
  l.foldl (· + ·) ⟨0, 0⟩

/-- Model of `statrs`' error function (external crate):
`erf x = 2/√π · ∫ t in 0..x, exp (-t²)`. -/
def erf (x : ℝ) : ℝ :=
  2 / Real.sqrt π * ∫ t in (0:ℝ)..x, Real.exp (-(t * t))

/-- Model of `statrs`' complementary error function: `erfc x = 1 - erf x`. -/
def erfc (x : ℝ) : ℝ := 1 - erf x

/-- Model of `statrs`' inverse complementary error function, as the inverse of `erfc`. -/
def erfc_inv : ℝ → ℝ := Function.invFun erfc

/-- The function `pdf` from `utils.rs`: `(-0.5 * x * x).exp() / SQRT_2PI`. -/
def pdf (x : ℝ) : ℝ :=
  Real.exp (-0.5 * x * x) / Real.sqrt (2 * π)

/-- The function `cdf` from `utils.rs`: `0.5 * erfc(-x / √2)`. -/
def cdf (x : ℝ) : ℝ :=
  0.5 * erfc (-x / Real.sqrt 2)

/-- The function `inverse_cdf` from `utils.rs`: `-√2 * erfc_inv (2 * x)`. -/
def inverse_cdf (x : ℝ) : ℝ :=
  -Real.sqrt 2 * erfc_inv (2 * x)

/-- The environment (`TrueSkill` struct, identical field list in `lib.rs` and
`trueskill.rs`). -/
structure TrueSkill where
  mu : ℝ
  sigma : ℝ
  beta : ℝ
  tau : ℝ
  draw_probability : ℝ

namespace TrueSkill

/-- The win correction factors `TrueSkill::vw` in `trueskill.rs`:
`v = pdf x / cdf x`, `w = v * (v + x)` at `x = t - ε`. -/
def vw (t eps : ℝ) : ℝ × ℝ :=
  let x := t - eps
  let v := pdf x / cdf x
  (v, v * (v + x))

/-- The draw correction factors `TrueSkill::vw_draw` in `trueskill.rs`. -/
def vw_draw (t eps : ℝ) : ℝ × ℝ :=
  let x1 := -eps - t
  let x2 := eps - t
  let den := cdf x2 - cdf x1
  let v := (pdf x1 - pdf x2) / den
  (v, v * v + (x2 * pdf x2 - x1 * pdf (-x1)) / den)

/-- The margin `TrueSkill::draw_margin` in `trueskill.rs`:
`inverse_cdf((1 + p) / 2) · √n · β`. -/
def draw_margin (p n beta : ℝ) : ℝ :=
  inverse_cdf ((1 + p) / 2) * Real.sqrt n * beta

/-- Body of `TrueSkill::update` after the Loss→Win normalization (the code from
`let player_count = ...` on).  The `Loss` arm of the inner match is unreachable
from `update` (Loss is normalized to Win first) and shares the Win formula. -/
def updateCore (env : TrueSkill) (team1 team2 : List Rating) (score : Score) :
    List Rating × List Rating :=
  let player_count : ℝ := ((team1.length + team2.length : ℕ) : ℝ)
  let add_dynamic_factor : Rating → Rating := fun x => x + ⟨0, env.tau * env.tau⟩
  let team1 := team1.map add_dynamic_factor
  let team2 := team2.map add_dynamic_factor
  let rating1 := Rating.sum team1
  let rating2 := Rating.sum team2
  let c2 := player_count * env.beta * env.beta + rating1.variance + rating2.variance
  let c := Real.sqrt c2
  let vwp :=
    let t := (rating1.mean - rating2.mean) / c
    let eps := draw_margin env.draw_probability player_count env.beta / c
    match score with
    | Score.Draw => vw_draw t eps
    | _ => vw t eps
  let f : Rating → ℝ → Rating := fun x mult =>
    ⟨x.mean + mult * x.variance / c * vwp.1,
     x.variance * (1 - x.variance / c2 * vwp.2)⟩
  (team1.map (fun x => f x 1), team2.map (fun x => f x (-1)))

/-- The update `TrueSkill::update` in `trueskill.rs`: a Loss delegates to the Win update
with the teams swapped, and the two results are swapped back. -/
def update (env : TrueSkill) (team1 team2 : List Rating) (score : Score) :
    List Rating × List Rating :=
  if score = Score.Loss then
    let r := env.updateCore team2 team1 Score.Win
    (r.2, r.1)
  else
    env.updateCore team1 team2 score

/-- Match quality `TrueSkill::quality` in `trueskill.rs`. -/
def quality (env : TrueSkill) (team1 team2 : List Rating) : ℝ :=
  let player1 := Rating.sum team1
  let player2 := Rating.sum team2
  let n := team1.length + team2.length
  let dmu := player1.mean - player2.mean
  let nb2 := (n : ℝ) * env.beta * env.beta
  let c2 := nb2 + player1.variance + player2.variance
  let u := Real.sqrt (nb2 / c2)
  let v := -dmu * dmu / (2 * c2)
  u * Real.exp v

/-- The `c²` computed inside `TrueSkill::update` (after the dynamic factor). -/
def c2val (env : TrueSkill) (team1 team2 : List Rating) : ℝ :=
  ((team1.length + team2.length : ℕ) : ℝ) * env.beta * env.beta
    + (Rating.sum (team1.map (fun x => x + ⟨0, env.tau * env.tau⟩))).variance
    + (Rating.sum (team2.map (fun x => x + ⟨0, env.tau * env.tau⟩))).variance

/-- The `c²` computed inside `TrueSkill::quality` (no dynamic factor). -/
def qc2 (env : TrueSkill) (team1 team2 : List Rating) : ℝ :=
  ((team1.length + team2.length : ℕ) : ℝ) * env.beta * env.beta
    + (Rating.sum team1).variance + (Rating.sum team2).variance

end TrueSkill

/-- The simplified environment (`simple_trueskill.rs`), without draw probability. -/
structure SimpleTrueSkill where
  mu : ℝ
  sigma : ℝ
  beta : ℝ
  tau : ℝ

namespace SimpleTrueSkill

/-- Win correction factors `SimpleTrueSkill::vw`. -/
def vw (x : ℝ) : ℝ × ℝ :=
  let v := pdf x / cdf x
  (v, v * (v + x))

/-- Draw correction factors `SimpleTrueSkill::vw_draw`: `[-x, 1]`. -/
def vw_draw (x : ℝ) : ℝ × ℝ := (-x, 1)

/-- Body of `SimpleTrueSkill::update` after the Loss→Win normalization.
As in `updateCore`, the unreachable `Loss` arm shares the Win formula. -/
def updateCore (env : SimpleTrueSkill) (team1 team2 : List Rating) (score : Score) :
    List Rating × List Rating :=
  let player_count : ℝ := ((team1.length + team2.length : ℕ) : ℝ)
  let add_dynamic_factor : Rating → Rating := fun x => x + ⟨0, env.tau * env.tau⟩
  let team1 := team1.map add_dynamic_factor
  let team2 := team2.map add_dynamic_factor
  let rating1 := Rating.sum team1
  let rating2 := Rating.sum team2
  let c2 := player_count * env.beta * env.beta + rating1.variance + rating2.variance
  let c := Real.sqrt c2
  let vwp :=
    let x := (rating1.mean - rating2.mean) / c
    match score with
    | Score.Draw => vw_draw x
    | _ => vw x
  let f : Rating → ℝ → Rating := fun x mult =>
    ⟨x.mean + mult * x.variance / c * vwp.1,
     x.variance * (1 - x.variance / c2 * vwp.2)⟩
  (team1.map (fun x => f x 1), team2.map (fun x => f x (-1)))

/-- The update `SimpleTrueSkill::update`. -/
def update (env : SimpleTrueSkill) (team1 team2 : List Rating) (score : Score) :
    List Rating × List Rating :=
  if score = Score.Loss then
    let r := env.updateCore team2 team1 Score.Win
    (r.2, r.1)
  else
    env.updateCore team1 team2 score

end SimpleTrueSkill

/-! ## The generic-float variant: `update.rs` and `matchmaking.rs` -/

namespace Gen

/-- The generic `Rating<F>` (mu / sigma representation) used by `lib.rs`,
`update.rs` and `matchmaking.rs`.  Its defining file is not under `src/`; the
field list is forced by the accessors `mu()` / `sigma()` and the constructor
`Rating::new(mu, sigma)` used there. -/
structure Rating where
  mu : ℝ
  sigma : ℝ

/-- Modelled from the spec: the generic `rating.rs` implementing
`From<&[Rating]>` (team aggregation) is not under `src/`.  Per spec §4.3
step 1, a team aggregates by summing means and summing variances; in the
sigma representation the aggregate sigma is the square root of the summed
squares. -/
def combine (team : List Rating) : Rating :=
  ⟨(team.map Rating.mu).sum,
   Real.sqrt ((team.map (fun r => r.sigma * r.sigma)).sum)⟩

/-- The factor `v` in `update.rs`: `pdf x / cdf x` at `x = t - ε`. -/
def v (t eps : ℝ) : ℝ :=
  pdf (t - eps) / cdf (t - eps)

/-- The factor `v_draw` in `update.rs`. -/
def v_draw (t eps : ℝ) : ℝ :=
  (pdf (-eps - t) - pdf (eps - t)) / (cdf (eps - t) - cdf (-eps - t))

/-- The factor `w` in `update.rs`: `v · (v + t - ε)`. -/
def w (t eps : ℝ) : ℝ :=
  v t eps * (v t eps + t - eps)

/-- The factor `w_draw` in `update.rs`:
`v² + (x1·pdf x1 + x2·pdf x2) / (cdf x1 - cdf (-x2))` with
`x1 = ε - t`, `x2 = ε + t`. -/
def w_draw (t eps : ℝ) : ℝ :=
  let x1 := eps - t
  let x2 := eps + t
  v_draw t eps * v_draw t eps
    + (x1 * pdf x1 + x2 * pdf x2) / (cdf x1 - cdf (-x2))

/-- The margin `draw_margin` in `update.rs` (same formula as in `trueskill.rs`). -/
def draw_margin (p n beta : ℝ) : ℝ :=
  inverse_cdf ((1 + p) / 2) * Real.sqrt n * beta

/-- Body of `update` in `update.rs` after the Loss→Win normalization. -/
def updateCore (env : TrueSkill) (team1 team2 : List Rating) (score : Score) :
    List Rating × List Rating :=
  let player_count : ℝ := ((team1.length + team2.length : ℕ) : ℝ)
  let tau := env.tau
  let add_dynamic_factor : Rating → Rating :=
    fun x => ⟨x.mu, Real.sqrt (x.sigma * x.sigma + tau * tau)⟩
  let team1 := team1.map add_dynamic_factor
  let team2 := team2.map add_dynamic_factor
  let beta := env.beta
  let eps := draw_margin env.draw_probability player_count beta
  let player1 := combine team1
  let player2 := combine team2
  let sigma1 := player1.sigma
  let sigma2 := player2.sigma
  let c2 := player_count * beta * beta + sigma1 * sigma1 + sigma2 * sigma2
  let c := Real.sqrt c2
  let vwp :=
    let t := (player1.mu - player2.mu) / c
    let eps' := eps / c
    if score = Score.Draw then (v_draw t eps', w_draw t eps')
    else (v t eps', w t eps')
  let f : Rating → ℝ → Rating := fun x mult =>
    let sigma := x.sigma
    let sigma2 := sigma * sigma
    ⟨x.mu + mult * sigma2 / c * vwp.1,
     Real.sqrt (sigma2 * (1 - sigma2 / c2 * vwp.2))⟩
  (team1.map (fun x => f x 1), team2.map (fun x => f x (-1)))

/-- The update `update` in `update.rs`: Loss recurses as Win with teams swapped. -/
def update (env : TrueSkill) (team1 team2 : List Rating) (score : Score) :
    List Rating × List Rating :=
  if score = Score.Loss then
    ((updateCore env team2 team1 Score.Win).2, (updateCore env team2 team1 Score.Win).1)
  else
    updateCore env team1 team2 score

/-- Match quality `quality` in `matchmaking.rs`. -/
def quality (env : TrueSkill) (team1 team2 : List Rating) : ℝ :=
  let player1 := combine team1
  let player2 := combine team2
  let beta := env.beta
  let n := team1.length + team2.length
  let nb2 := (n : ℝ) * beta * beta
  let sigma1 := player1.sigma
  let sigma2 := player2.sigma
  let dmu := player1.mu - player2.mu
  let c2 := nb2 + sigma1 * sigma1 + sigma2 * sigma2
  let u := Real.sqrt (nb2 / c2)
  let vv := Real.exp (-(dmu * dmu) / (2 * c2))
  u * vv

/-- The `c²` computed inside `quality` in `matchmaking.rs`. -/
def qc2 (env : TrueSkill) (team1 team2 : List Rating) : ℝ :=
  ((team1.length + team2.length : ℕ) : ℝ) * env.beta * env.beta
    + (combine team1).sigma * (combine team1).sigma
    + (combine team2).sigma * (combine team2).sigma

/-- Model of `itertools`' `combinations(k)` on a list, in the order the iterator
produces them (each combination keeps the original element order). -/
def combinations : ℕ → List ℕ → List (List ℕ)
  | 0, _ => [[]]
  | _ + 1, [] => []
  | k + 1, x :: xs => (combinations k xs).map (x :: ·) ++ combinations (k + 1) xs

/-- Index selection `players[x]` for an index list (indices produced by
`balance` are always in range). -/
def pick (players : List Rating) (idx : List ℕ) : List Rating :=
  idx.map (fun i => players.getD i ⟨0, 0⟩)

/-- The two index teams built from the membership mask `is_team1` in
`balance`: indices not in `v` (in ascending order) and indices in `v`. -/
def teamsOf (len : ℕ) (v : List ℕ) : List ℕ × List ℕ :=
  ((List.range len).filter (fun i => !(v.contains i)),
   (List.range len).filter (fun i => v.contains i))

/-- Quality of a candidate pair of index teams, as evaluated in `balance`. -/
def balQuality (env : TrueSkill) (players : List Rating) (pr : List ℕ × List ℕ) : ℝ :=
  quality env (pick players pr.1) (pick players pr.2)

/-- Loop body of `balance` in `matchmaking.rs`. -/
def balanceStep (env : TrueSkill) (players : List Rating)
    (best : ℝ × Option (List ℕ × List ℕ)) (v : List ℕ) :
    ℝ × Option (List ℕ × List ℕ) :=
  let teams := teamsOf players.length v
  let q := balQuality env players teams
  if best.1 < q then (q, some teams) else best

/-- Team balancing `balance` in `matchmaking.rs`: brute-force search over the combinations of
`floor(len/2)` indices drawn from `1..len`, keeping the strictly best quality;
`None` (no candidate beat the initial best quality `0`) yields `([], [])`. -/
def balance (env : TrueSkill) (players : List Rating) : List ℕ × List ℕ :=
  ((combinations (players.length / 2) (List.range' 1 (players.length - 1))).foldl
      (balanceStep env players) (0, none)).2.getD ([], [])

end Gen

/-! ## Analytic facts about `pdf`, `cdf`, `erf` -/

theorem pdf_pos (x : ℝ) : 0 < pdf x := by
  unfold pdf
  have h : 0 < Real.sqrt (2 * π) := Real.sqrt_pos.2 (by positivity)
  positivity

theorem pdf_even (x : ℝ) : pdf (-x) = pdf x := by
  unfold pdf
  congr 2
  ring

theorem continuous_pdf : Continuous pdf := by
  unfold pdf
  exact (Real.continuous_exp.comp (by continuity)).div_const _

theorem pdf_eq_gauss (x : ℝ) :
    pdf x = Real.exp (-(1/2) * x ^ 2) / Real.sqrt (2 * π) := by
  unfold pdf
  congr 2
  ring

theorem integrable_pdf : MeasureTheory.Integrable pdf := by
  have h := (integrable_exp_neg_mul_sq (by norm_num : (0:ℝ) < 1/2)).div_const
    (Real.sqrt (2 * π))
  exact h.congr (Filter.Eventually.of_forall fun x => (pdf_eq_gauss x).symm)

theorem integral_pdf : ∫ x, pdf x = 1 := by
  have h : ∫ x, pdf x = (∫ x, Real.exp (-(1/2) * x ^ 2)) / Real.sqrt (2 * π) := by
    rw [← MeasureTheory.integral_div]
    exact MeasureTheory.integral_congr_ae (Filter.Eventually.of_forall fun x => pdf_eq_gauss x)
  rw [h, integral_gaussian]
  rw [show π / (1/2 : ℝ) = 2 * π by ring]
  exact div_self (ne_of_gt (Real.sqrt_pos.2 (by positivity)))

theorem intervalIntegrable_pdf (a b : ℝ) : IntervalIntegrable pdf MeasureTheory.volume a b :=
  continuous_pdf.intervalIntegrable a b

/-- The inner gaussian integral of `erf` flips sign with its endpoint. -/
theorem gauss_int_neg (y : ℝ) :
    (∫ t in (0:ℝ)..(-y), Real.exp (-(t * t))) = -∫ t in (0:ℝ)..y, Real.exp (-(t * t)) := by
  have h := @intervalIntegral.integral_comp_neg ℝ _ _ 0 y (fun t => Real.exp (-(t * t)))
  simp only [neg_mul_neg, neg_zero] at h
  rw [intervalIntegral.integral_symm (-y) 0, h]

/-- Change of variables turning the `erf` integrand into the normal density. -/
theorem gauss_int_scale (x : ℝ) :
    (∫ u in (0:ℝ)..x, pdf u)
      = (1 / Real.sqrt π) * ∫ t in (0:ℝ)..(x / Real.sqrt 2), Real.exp (-(t * t)) := by
  have h2 : (0:ℝ) < Real.sqrt 2 := Real.sqrt_pos.2 (by norm_num)
  have hc : ((Real.sqrt 2)⁻¹ : ℝ) ≠ 0 := inv_ne_zero (ne_of_gt h2)
  have key : ∀ u : ℝ, pdf u
      = (fun t => Real.exp (-(t * t))) ((Real.sqrt 2)⁻¹ * u) / Real.sqrt (2 * π) := by
    intro u
    unfold pdf
    congr 1
    congr 1
    have : (Real.sqrt 2)⁻¹ * u * ((Real.sqrt 2)⁻¹ * u)
        = ((Real.sqrt 2)⁻¹ * (Real.sqrt 2)⁻¹) * (u * u) := by ring
    rw [this, ← mul_inv, Real.mul_self_sqrt (by norm_num : (0:ℝ) ≤ 2)]
    ring
  calc ∫ u in (0:ℝ)..x, pdf u
      = ∫ u in (0:ℝ)..x,
          (fun t => Real.exp (-(t * t))) ((Real.sqrt 2)⁻¹ * u) / Real.sqrt (2 * π) :=
        intervalIntegral.integral_congr (fun u _ => key u)
    _ = (∫ u in (0:ℝ)..x, (fun t => Real.exp (-(t * t))) ((Real.sqrt 2)⁻¹ * u))
          / Real.sqrt (2 * π) := intervalIntegral.integral_div _ _
    _ = (((Real.sqrt 2)⁻¹)⁻¹ • ∫ t in ((Real.sqrt 2)⁻¹ * 0)..((Real.sqrt 2)⁻¹ * x),
          Real.exp (-(t * t))) / Real.sqrt (2 * π) := by
        rw [@intervalIntegral.integral_comp_mul_left ℝ _ _ 0 x ((Real.sqrt 2)⁻¹)
          (fun t => Real.exp (-(t * t))) hc]
    _ = (1 / Real.sqrt π) * ∫ t in (0:ℝ)..(x / Real.sqrt 2), Real.exp (-(t * t)) := by
        rw [inv_inv, mul_zero, smul_eq_mul, Real.sqrt_mul (by norm_num : (0:ℝ) ≤ 2) π]
        rw [show (Real.sqrt 2)⁻¹ * x = x / Real.sqrt 2 by ring]
        have hπ : (0:ℝ) < Real.sqrt π := Real.sqrt_pos.2 Real.pi_pos
        field_simp
        ring

/-- Expression of `cdf` as one half plus the integral of `pdf` from `0`. -/
theorem cdf_eq (x : ℝ) : cdf x = 1/2 + ∫ u in (0:ℝ)..x, pdf u := by
  unfold cdf erfc erf
  rw [show -x / Real.sqrt 2 = -(x / Real.sqrt 2) by ring, gauss_int_neg,
    gauss_int_scale]
  have hπ : (0:ℝ) < Real.sqrt π := Real.sqrt_pos.2 Real.pi_pos
  field_simp
  ring

theorem cdf_zero : cdf 0 = 1/2 := by
  rw [cdf_eq, intervalIntegral.integral_same]
  ring

theorem cdf_sub (a b : ℝ) : cdf b - cdf a = ∫ u in a..b, pdf u := by
  rw [cdf_eq, cdf_eq]
  have h := intervalIntegral.integral_add_adjacent_intervals
    (intervalIntegrable_pdf 0 a) (intervalIntegrable_pdf a b)
  linarith [h]

theorem cdf_lt_cdf {a b : ℝ} (hab : a < b) : cdf a < cdf b := by
  have h : 0 < ∫ u in a..b, pdf u :=
    intervalIntegral.intervalIntegral_pos_of_pos (intervalIntegrable_pdf a b)
      pdf_pos hab
  have := cdf_sub a b
  linarith

theorem cdf_strictMono : StrictMono cdf := fun _ _ h => cdf_lt_cdf h

/-- Identity: `cdf` is the distribution function of `pdf`. -/
theorem cdf_Iic (x : ℝ) : cdf x = ∫ t in Iic x, pdf t := by
  have h0 : (∫ t in Iic (0:ℝ), pdf t) = 1/2 := by
    have heven : (∫ t in Iic (0:ℝ), pdf t) = ∫ t in Ioi (0:ℝ), pdf t := by
      have h := integral_comp_neg_Iic (0:ℝ) pdf
      rw [neg_zero] at h
      rw [← h]
      exact MeasureTheory.integral_congr_ae
        (Filter.Eventually.of_forall fun t => (pdf_even t).symm)
    have hsplit := intervalIntegral.integral_Iic_add_Ioi
      (integrable_pdf.integrableOn :
        MeasureTheory.IntegrableOn pdf (Iic (0:ℝ)) MeasureTheory.volume)
      (integrable_pdf.integrableOn :
        MeasureTheory.IntegrableOn pdf (Ioi (0:ℝ)) MeasureTheory.volume)
    rw [integral_pdf] at hsplit
    rw [heven] at hsplit ⊢
    linarith
  have h := intervalIntegral.integral_Iic_sub_Iic
    (integrable_pdf.integrableOn :
      MeasureTheory.IntegrableOn pdf (Iic (0:ℝ)) MeasureTheory.volume)
    (integrable_pdf.integrableOn :
      MeasureTheory.IntegrableOn pdf (Iic x) MeasureTheory.volume)
  rw [h0] at h
  rw [cdf_eq, ← h]
  ring

theorem cdf_pos (x : ℝ) : 0 < cdf x := by
  have h1 : cdf (x - 1) < cdf x := cdf_lt_cdf (by linarith)
  have h2 : 0 ≤ cdf (x - 1) := by
    rw [cdf_Iic]
    exact MeasureTheory.setIntegral_nonneg measurableSet_Iic fun t _ => (pdf_pos t).le
  linarith

theorem cdf_lt_one (x : ℝ) : cdf x < 1 := by
  have hsplit := intervalIntegral.integral_Iic_add_Ioi
    (integrable_pdf.integrableOn :
      MeasureTheory.IntegrableOn pdf (Iic x) MeasureTheory.volume)
    (integrable_pdf.integrableOn :
      MeasureTheory.IntegrableOn pdf (Ioi x) MeasureTheory.volume)
  rw [integral_pdf] at hsplit
  have hpos : 0 < ∫ t in Ioi x, pdf t := by
    have hsub : (∫ t in Ioc x (x+1), pdf t) ≤ ∫ t in Ioi x, pdf t := by
      apply MeasureTheory.setIntegral_mono_set
        (integrable_pdf.integrableOn :
          MeasureTheory.IntegrableOn pdf (Ioi x) MeasureTheory.volume)
        (Filter.Eventually.of_forall fun t => (pdf_pos t).le)
      exact HasSubset.Subset.eventuallyLE (Ioc_subset_Ioi_self)
    have hI : (∫ t in Ioc x (x+1), pdf t) = ∫ t in x..(x+1), pdf t :=
      (intervalIntegral.integral_of_le (by linarith)).symm
    have hpos' : 0 < ∫ t in x..(x+1), pdf t :=
      intervalIntegral.intervalIntegral_pos_of_pos (intervalIntegrable_pdf _ _)
        pdf_pos (by linarith)
    rw [hI] at hsub
    linarith
  rw [cdf_Iic]
  linarith

theorem cdf_ne_zero (x : ℝ) : cdf x ≠ 0 := ne_of_gt (cdf_pos x)

/-! ### `erf` facts needed for `inverse_cdf` -/

theorem erf_zero : erf 0 = 0 := by
  unfold erf
  rw [intervalIntegral.integral_same]
  ring

theorem erf_strictMono : StrictMono erf := by
  intro a b hab
  unfold erf
  have hc : Continuous fun t : ℝ => Real.exp (-(t * t)) :=
    Real.continuous_exp.comp (by continuity)
  have hpos : 0 < ∫ t in a..b, Real.exp (-(t * t)) :=
    intervalIntegral.intervalIntegral_pos_of_pos (hc.intervalIntegrable a b)
      (fun t => Real.exp_pos _) hab
  have hadd := intervalIntegral.integral_add_adjacent_intervals
    (hc.intervalIntegrable 0 a :
      IntervalIntegrable _ MeasureTheory.volume 0 a)
    (hc.intervalIntegrable a b)
  have hcoef : 0 < 2 / Real.sqrt π := by
    have := Real.sqrt_pos.2 Real.pi_pos
    positivity
  have : (∫ t in (0:ℝ)..a, Real.exp (-(t * t))) < ∫ t in (0:ℝ)..b, Real.exp (-(t * t)) := by
    linarith
  exact mul_lt_mul_of_pos_left this hcoef

theorem erfc_injective : Function.Injective erfc := by
  intro a b h
  unfold erfc at h
  exact erf_strictMono.injective (by linarith)

theorem erfc_zero : erfc 0 = 1 := by
  unfold erfc
  rw [erf_zero]
  ring

theorem erfc_inv_one : erfc_inv 1 = 0 := by
  unfold erfc_inv
  rw [← erfc_zero]
  exact Function.leftInverse_invFun erfc_injective 0

theorem inverse_cdf_half : inverse_cdf (1/2) = 0 := by
  unfold inverse_cdf
  rw [show (2 * (1/2 : ℝ)) = 1 by norm_num, erfc_inv_one, mul_zero]

theorem draw_margin_zero (n b : ℝ) : TrueSkill.draw_margin 0 n b = 0 := by
  unfold TrueSkill.draw_margin
  rw [show ((1 + (0:ℝ)) / 2) = 1/2 by norm_num, inverse_cdf_half, zero_mul, zero_mul]

theorem gen_draw_margin_zero (n b : ℝ) : Gen.draw_margin 0 n b = 0 := by
  unfold Gen.draw_margin
  rw [show ((1 + (0:ℝ)) / 2) = 1/2 by norm_num, inverse_cdf_half, zero_mul, zero_mul]

/-! ### Derivatives, tails and moments of the normal density -/

theorem hasDerivAt_pdf (x : ℝ) : HasDerivAt pdf (-x * pdf x) x := by
  have h1 : HasDerivAt (fun t : ℝ => -0.5 * t * t) (-x) x := by
    have h := ((hasDerivAt_id x).const_mul (-0.5 : ℝ)).mul (hasDerivAt_id x)
    convert h using 1
    simp only [id_eq]
    ring
  have h2 := h1.exp.div_const (Real.sqrt (2 * π))
  convert h2 using 1
  unfold pdf
  ring

theorem hasDerivAt_cdf (x : ℝ) : HasDerivAt cdf (pdf x) x := by
  have h : HasDerivAt (fun u => ∫ t in (0:ℝ)..u, pdf t) (pdf x) x :=
    intervalIntegral.integral_hasDerivAt_right (intervalIntegrable_pdf 0 x)
      (continuous_pdf.stronglyMeasurableAtFilter _ _)
      continuous_pdf.continuousAt
  have hfun : cdf = fun u => 1/2 + ∫ t in (0:ℝ)..u, pdf t := funext cdf_eq
  rw [hfun]
  simpa using h.const_add (1/2 : ℝ)

theorem sq_le_exp_bound (t : ℝ) : t * t ≤ 4 * Real.exp ((1/4) * t ^ 2) := by
  have h := Real.add_one_le_exp ((1/4) * t ^ 2)
  nlinarith [Real.exp_pos ((1/4) * t ^ 2)]

theorem abs_le_exp_bound (t : ℝ) : |t| ≤ 4 * Real.exp ((1/4) * t ^ 2) := by
  rcases le_or_lt (|t|) 1 with h | h
  · have h1 : (1:ℝ) ≤ Real.exp ((1/4) * t ^ 2) := Real.one_le_exp (by positivity)
    linarith
  · have h2 : |t| ≤ t * t := by
      have := abs_nonneg t
      nlinarith [sq_abs t, sq_nonneg t]
    linarith [sq_le_exp_bound t]

theorem integrable_mul_pdf : MeasureTheory.Integrable (fun t : ℝ => t * pdf t) := by
  have hmaj : MeasureTheory.Integrable
      (fun t : ℝ => 4 * Real.exp (-(1/4) * t ^ 2) / Real.sqrt (2 * π)) :=
    ((integrable_exp_neg_mul_sq (by norm_num)).const_mul 4).div_const _
  have hmeas : MeasureTheory.AEStronglyMeasurable (fun t : ℝ => t * pdf t)
      MeasureTheory.volume := (continuous_id.mul continuous_pdf).aestronglyMeasurable
  apply MeasureTheory.Integrable.mono' hmaj hmeas
  apply Filter.Eventually.of_forall
  intro t
  rw [Real.norm_eq_abs, abs_mul, abs_of_pos (pdf_pos t), pdf_eq_gauss]
  have hK : (0:ℝ) < Real.sqrt (2 * π) := Real.sqrt_pos.2 (by positivity)
  rw [show |t| * (Real.exp (-(1/2) * t ^ 2) / Real.sqrt (2 * π))
        = |t| * Real.exp (-(1/2) * t ^ 2) / Real.sqrt (2 * π) by ring]
  apply div_le_div_of_nonneg_right ?_ hK.le
  calc |t| * Real.exp (-(1/2) * t ^ 2)
      ≤ 4 * Real.exp ((1/4) * t ^ 2) * Real.exp (-(1/2) * t ^ 2) :=
        mul_le_mul_of_nonneg_right (abs_le_exp_bound t) (Real.exp_pos _).le
    _ = 4 * Real.exp (-(1/4) * t ^ 2) := by
        rw [mul_assoc, ← Real.exp_add]
        congr 2
        ring

theorem integrable_sq_mul_pdf : MeasureTheory.Integrable (fun t : ℝ => t * t * pdf t) := by
  have hmaj : MeasureTheory.Integrable
      (fun t : ℝ => 4 * Real.exp (-(1/4) * t ^ 2) / Real.sqrt (2 * π)) :=
    ((integrable_exp_neg_mul_sq (by norm_num)).const_mul 4).div_const _
  have hmeas : MeasureTheory.AEStronglyMeasurable (fun t : ℝ => t * t * pdf t)
      MeasureTheory.volume :=
    ((continuous_id.mul continuous_id).mul continuous_pdf).aestronglyMeasurable
  apply MeasureTheory.Integrable.mono' hmaj hmeas
  apply Filter.Eventually.of_forall
  intro t
  rw [Real.norm_eq_abs, abs_mul, abs_of_pos (pdf_pos t), pdf_eq_gauss, abs_mul_self]
  have hK : (0:ℝ) < Real.sqrt (2 * π) := Real.sqrt_pos.2 (by positivity)
  rw [show t * t * (Real.exp (-(1/2) * t ^ 2) / Real.sqrt (2 * π))
        = t * t * Real.exp (-(1/2) * t ^ 2) / Real.sqrt (2 * π) by ring]
  apply div_le_div_of_nonneg_right ?_ hK.le
  calc t * t * Real.exp (-(1/2) * t ^ 2)
      ≤ 4 * Real.exp ((1/4) * t ^ 2) * Real.exp (-(1/2) * t ^ 2) :=
        mul_le_mul_of_nonneg_right (sq_le_exp_bound t) (Real.exp_pos _).le
    _ = 4 * Real.exp (-(1/4) * t ^ 2) := by
        rw [mul_assoc, ← Real.exp_add]
        congr 2
        ring

theorem tendsto_pdf_atBot : Tendsto pdf atBot (𝓝 0) := by
  have hg : Tendsto (fun t : ℝ => Real.exp t / Real.sqrt (2 * π)) atBot (𝓝 0) := by
    simpa using Real.tendsto_exp_atBot.div_const (Real.sqrt (2 * π))
  have hb : ∀ᶠ t in atBot, pdf t ≤ Real.exp t / Real.sqrt (2 * π) := by
    filter_upwards [eventually_le_atBot (-2 : ℝ)] with t ht
    unfold pdf
    have hK : (0:ℝ) < Real.sqrt (2 * π) := Real.sqrt_pos.2 (by positivity)
    exact div_le_div_of_nonneg_right (Real.exp_le_exp.2 (by nlinarith)) hK.le
  exact squeeze_zero' (Filter.Eventually.of_forall fun t => (pdf_pos t).le) hb hg

theorem tendsto_mul_pdf_atTop : Tendsto (fun t : ℝ => t * pdf t) atTop (𝓝 0) := by
  have hg : Tendsto (fun t : ℝ => t * Real.exp (-t) / Real.sqrt (2 * π)) atTop (𝓝 0) := by
    have h := Real.tendsto_pow_mul_exp_neg_atTop_nhds_zero 1
    simp only [pow_one] at h
    simpa using h.div_const (Real.sqrt (2 * π))
  have h0 : ∀ᶠ t in atTop, 0 ≤ t * pdf t := by
    filter_upwards [eventually_ge_atTop (0:ℝ)] with t ht
    exact mul_nonneg ht (pdf_pos t).le
  have hb : ∀ᶠ t in atTop, t * pdf t ≤ t * Real.exp (-t) / Real.sqrt (2 * π) := by
    filter_upwards [eventually_ge_atTop (2:ℝ)] with t ht
    unfold pdf
    rw [show t * (Real.exp (-0.5 * t * t) / Real.sqrt (2 * π))
          = t * Real.exp (-0.5 * t * t) / Real.sqrt (2 * π) by ring]
    have hK : (0:ℝ) < Real.sqrt (2 * π) := Real.sqrt_pos.2 (by positivity)
    apply div_le_div_of_nonneg_right ?_ hK.le
    have hexp : Real.exp (-0.5 * t * t) ≤ Real.exp (-t) :=
      Real.exp_le_exp.2 (by nlinarith)
    exact mul_le_mul_of_nonneg_left hexp (by linarith)
  exact squeeze_zero' h0 hb hg

theorem tendsto_mul_pdf_atBot : Tendsto (fun t : ℝ => t * pdf t) atBot (𝓝 0) := by
  have h := tendsto_mul_pdf_atTop.comp
    (Filter.tendsto_neg_atBot_atTop : Tendsto (Neg.neg : ℝ → ℝ) atBot atTop)
  have h2 : Tendsto (fun s : ℝ => -s * pdf (-s)) atBot (𝓝 0) :=
    h.congr fun s => rfl
  have h3 := h2.neg
  rw [neg_zero] at h3
  exact h3.congr fun s => by rw [pdf_even]; ring

theorem integral_Iic_mul_pdf (x : ℝ) : ∫ t in Iic x, t * pdf t = -pdf x := by
  have hderiv : ∀ t ∈ Iic x, HasDerivAt (fun s => -pdf s) ((fun s => s * pdf s) t) t := by
    intro t _
    have h := (hasDerivAt_pdf t).neg
    convert h using 1
    ring
  have hint : MeasureTheory.IntegrableOn (fun s : ℝ => s * pdf s) (Iic x)
      MeasureTheory.volume := integrable_mul_pdf.integrableOn
  have hlim : Tendsto (fun s : ℝ => -pdf s) atBot (𝓝 0) := by
    simpa using tendsto_pdf_atBot.neg
  have h := MeasureTheory.integral_Iic_of_hasDerivAt_of_tendsto' hderiv hint hlim
  simpa using h

theorem integral_Iic_sq_mul_pdf (x : ℝ) :
    ∫ t in Iic x, t * t * pdf t = cdf x - x * pdf x := by
  have hderiv : ∀ t ∈ Iic x,
      HasDerivAt (fun s => -(s * pdf s)) ((fun s => s * s * pdf s - pdf s) t) t := by
    intro t _
    have h := ((hasDerivAt_id t).mul (hasDerivAt_pdf t)).neg
    convert h using 1
    simp
    ring
  have hint : MeasureTheory.IntegrableOn (fun s : ℝ => s * s * pdf s - pdf s) (Iic x)
      MeasureTheory.volume := (integrable_sq_mul_pdf.sub integrable_pdf).integrableOn
  have hlim : Tendsto (fun s : ℝ => -(s * pdf s)) atBot (𝓝 0) := by
    simpa using tendsto_mul_pdf_atBot.neg
  have h := MeasureTheory.integral_Iic_of_hasDerivAt_of_tendsto' hderiv hint hlim
  have hsplit : (∫ t in Iic x, (t * t * pdf t - pdf t))
      = (∫ t in Iic x, t * t * pdf t) - ∫ t in Iic x, pdf t :=
    MeasureTheory.integral_sub integrable_sq_mul_pdf.integrableOn
      integrable_pdf.integrableOn
  rw [hsplit] at h
  have hc := cdf_Iic x
  have hend : -(x * pdf x) - 0 = -(x * pdf x) := by ring
  rw [hend] at h
  linarith

/-- Second moment of the left tail, against an affine shift. -/
theorem integral_Iic_quad (x lam : ℝ) :
    (∫ t in Iic x, (t + lam) ^ 2 * pdf t)
      = (cdf x - x * pdf x) - 2 * lam * pdf x + lam ^ 2 * cdf x := by
  have e : (fun t : ℝ => (t + lam) ^ 2 * pdf t)
      = fun t => t * t * pdf t + (2 * lam * (t * pdf t) + lam ^ 2 * pdf t) := by
    funext t
    ring
  have ha : MeasureTheory.Integrable (fun t : ℝ => 2 * lam * (t * pdf t)) :=
    integrable_mul_pdf.const_mul (2 * lam)
  have hb : MeasureTheory.Integrable (fun t : ℝ => lam ^ 2 * pdf t) :=
    integrable_pdf.const_mul (lam ^ 2)
  have hab : MeasureTheory.Integrable
      (fun t : ℝ => 2 * lam * (t * pdf t) + lam ^ 2 * pdf t) := ha.add hb
  rw [e]
  rw [MeasureTheory.integral_add integrable_sq_mul_pdf.integrableOn hab.integrableOn]
  rw [MeasureTheory.integral_add ha.integrableOn hb.integrableOn]
  rw [MeasureTheory.integral_mul_left, MeasureTheory.integral_mul_left,
    integral_Iic_sq_mul_pdf, integral_Iic_mul_pdf, ← cdf_Iic]
  ring

/-- Mills-type inequality: the mean of the left-truncated normal is at most the
truncation point, i.e. `-pdf x ≤ x * cdf x`. -/
theorem mills_le (x : ℝ) : -pdf x ≤ x * cdf x := by
  have hmono : (∫ t in Iic x, t * pdf t) ≤ ∫ t in Iic x, x * pdf t := by
    apply MeasureTheory.setIntegral_mono_on integrable_mul_pdf.integrableOn
      ((integrable_pdf.const_mul x).integrableOn) measurableSet_Iic
    intro t ht
    exact mul_le_mul_of_nonneg_right ht (pdf_pos t).le
  rw [integral_Iic_mul_pdf, MeasureTheory.integral_mul_left, ← cdf_Iic] at hmono
  exact hmono

/-- Mills-type inequality: the variance of the left-truncated normal is
nonnegative, i.e. `pdf x ^ 2 + x * pdf x * cdf x ≤ cdf x ^ 2`. -/
theorem mills_sq (x : ℝ) :
    pdf x * pdf x + x * pdf x * cdf x ≤ cdf x * cdf x := by
  have hΦ := cdf_pos x
  have hne := cdf_ne_zero x
  have key : 0 ≤ (cdf x - x * pdf x) - 2 * (pdf x / cdf x) * pdf x
      + (pdf x / cdf x) ^ 2 * cdf x := by
    rw [← integral_Iic_quad]
    exact MeasureTheory.setIntegral_nonneg measurableSet_Iic fun t _ =>
      mul_nonneg (sq_nonneg _) (pdf_pos t).le
  have hv : pdf x / cdf x * cdf x = pdf x := div_mul_cancel₀ _ hne
  have h2 := mul_nonneg key hΦ.le
  have h3 : ((cdf x - x * pdf x) - 2 * (pdf x / cdf x) * pdf x
        + (pdf x / cdf x) ^ 2 * cdf x) * cdf x
      = cdf x * cdf x - x * pdf x * cdf x - 2 * pdf x * (pdf x / cdf x * cdf x)
        + (pdf x / cdf x * cdf x) * (pdf x / cdf x * cdf x) := by
    ring
  rw [h3, hv] at h2
  linarith

/-! ### Interval moments, for the draw factors -/

theorem integral_interval_mul_pdf (a b : ℝ) :
    ∫ t in a..b, t * pdf t = pdf a - pdf b := by
  have hderiv : ∀ t ∈ uIcc a b, HasDerivAt (fun s => -pdf s) ((fun s => s * pdf s) t) t := by
    intro t _
    have h := (hasDerivAt_pdf t).neg
    convert h using 1
    ring
  have hint : IntervalIntegrable (fun s : ℝ => s * pdf s) MeasureTheory.volume a b :=
    (continuous_id.mul continuous_pdf).intervalIntegrable a b
  have h := intervalIntegral.integral_eq_sub_of_hasDerivAt hderiv hint
  rw [h]
  ring

theorem integral_interval_sq_mul_pdf (a b : ℝ) :
    ∫ t in a..b, t * t * pdf t = (cdf b - b * pdf b) - (cdf a - a * pdf a) := by
  have hderiv : ∀ t ∈ uIcc a b,
      HasDerivAt (fun s => cdf s - s * pdf s) ((fun s => s * s * pdf s) t) t := by
    intro t _
    have h := (hasDerivAt_cdf t).sub ((hasDerivAt_id t).mul (hasDerivAt_pdf t))
    convert h using 1
    simp only [id_eq]
    ring
  have hint : IntervalIntegrable (fun s : ℝ => s * s * pdf s) MeasureTheory.volume a b :=
    ((continuous_id.mul continuous_id).mul continuous_pdf).intervalIntegrable a b
  exact intervalIntegral.integral_eq_sub_of_hasDerivAt hderiv hint

/-- Cauchy–Schwarz for the normal weight on an interval, in the closed form
used by the draw correction factors. -/
theorem interval_cs (a b : ℝ) (hab : a < b) :
    (pdf a - pdf b) ^ 2
      ≤ (cdf b - cdf a) * ((cdf b - cdf a) + a * pdf a - b * pdf b) := by
  have hden : 0 < cdf b - cdf a := sub_pos.2 (cdf_lt_cdf hab)
  set A : ℝ := pdf a - pdf b with hA
  set den : ℝ := cdf b - cdf a with hden2
  set lam : ℝ := -(A / den) with hlam
  have hexp : (∫ t in a..b, (t + lam) ^ 2 * pdf t)
      = ((cdf b - b * pdf b) - (cdf a - a * pdf a)) + 2 * lam * A + lam ^ 2 * den := by
    have e : (fun t : ℝ => (t + lam) ^ 2 * pdf t)
        = fun t => t * t * pdf t + (2 * lam * (t * pdf t) + lam ^ 2 * pdf t) := by
      funext t
      ring
    have c1 : Continuous (fun s : ℝ => s * s * pdf s) :=
      (continuous_id.mul continuous_id).mul continuous_pdf
    have c2 : Continuous (fun s : ℝ => 2 * lam * (s * pdf s)) :=
      continuous_const.mul (continuous_id.mul continuous_pdf)
    have c3 : Continuous (fun s : ℝ => lam ^ 2 * pdf s) :=
      continuous_const.mul continuous_pdf
    have c4 : Continuous (fun s : ℝ => 2 * lam * (s * pdf s) + lam ^ 2 * pdf s) :=
      c2.add c3
    rw [e]
    rw [intervalIntegral.integral_add (c1.intervalIntegrable a b)
      (c4.intervalIntegrable a b)]
    rw [intervalIntegral.integral_add (c2.intervalIntegrable a b)
      (c3.intervalIntegrable a b)]
    rw [intervalIntegral.integral_const_mul, intervalIntegral.integral_const_mul,
      integral_interval_mul_pdf, integral_interval_sq_mul_pdf, ← cdf_sub]
    rw [← hA, ← hden2]
    ring
  have hnn : 0 ≤ ∫ t in a..b, (t + lam) ^ 2 * pdf t :=
    intervalIntegral.integral_nonneg hab.le fun u _ =>
      mul_nonneg (sq_nonneg _) (pdf_pos u).le
  rw [hexp] at hnn
  have hB2 : ((cdf b - b * pdf b) - (cdf a - a * pdf a)) = den + a * pdf a - b * pdf b := by
    rw [hden2]
    ring
  rw [hB2] at hnn
  have hval : (den + a * pdf a - b * pdf b) + 2 * lam * A + lam ^ 2 * den
      = (den + a * pdf a - b * pdf b) - A ^ 2 / den := by
    rw [hlam]
    field_simp
    ring
  rw [hval] at hnn
  have h2 : A ^ 2 / den ≤ den + a * pdf a - b * pdf b := by linarith
  rw [div_le_iff₀ hden] at h2
  calc A ^ 2 ≤ (den + a * pdf a - b * pdf b) * den := h2
    _ = den * (den + a * pdf a - b * pdf b) := by ring

/-! ### Bounds on the correction factors -/

theorem vw_fst_pos (t e : ℝ) : 0 < (TrueSkill.vw t e).1 := by
  unfold TrueSkill.vw
  exact div_pos (pdf_pos _) (cdf_pos _)

theorem vw_snd_nonneg (t e : ℝ) : 0 ≤ (TrueSkill.vw t e).2 := by
  unfold TrueSkill.vw
  set x : ℝ := t - e
  have hΦ := cdf_pos x
  have hm := mills_le x
  have h1 : 0 ≤ pdf x / cdf x := (div_pos (pdf_pos x) hΦ).le
  have h2 : 0 ≤ pdf x / cdf x + x := by
    have : 0 ≤ (pdf x + x * cdf x) / cdf x := div_nonneg (by linarith) hΦ.le
    have heq : (pdf x + x * cdf x) / cdf x = pdf x / cdf x + x := by
      field_simp
    linarith [heq ▸ this]
  exact mul_nonneg h1 h2

theorem vw_snd_le_one (t e : ℝ) : (TrueSkill.vw t e).2 ≤ 1 := by
  simp only [TrueSkill.vw]
  set x : ℝ := t - e
  have hΦ := cdf_pos x
  have hm := mills_sq x
  have heq : pdf x / cdf x * (pdf x / cdf x + x)
      = (pdf x * pdf x + x * pdf x * cdf x) / (cdf x * cdf x) := by
    field_simp
    ring
  rw [heq]
  exact (div_le_one (by positivity)).2 hm

theorem vw_draw_zero (t : ℝ) : TrueSkill.vw_draw t 0 = (0, 0) := by
  simp [TrueSkill.vw_draw, pdf_even]

theorem vw_draw_snd_le_one (t e : ℝ) (he : 0 ≤ e) : (TrueSkill.vw_draw t e).2 ≤ 1 := by
  rcases eq_or_lt_of_le he with h0 | h0
  · rw [← h0, vw_draw_zero]
    norm_num
  · simp only [TrueSkill.vw_draw]
    set x1 : ℝ := -e - t with hx1
    set x2 : ℝ := e - t with hx2
    have hlt : x1 < x2 := by
      rw [hx1, hx2]
      linarith
    have hden : 0 < cdf x2 - cdf x1 := sub_pos.2 (cdf_lt_cdf hlt)
    have hcs := interval_cs x1 x2 hlt
    rw [show pdf (-x1) = pdf x1 from pdf_even _]
    set A : ℝ := pdf x1 - pdf x2
    set den : ℝ := cdf x2 - cdf x1
    have goal_eq : A / den * (A / den) + (x2 * pdf x2 - x1 * pdf x1) / den
        = (A ^ 2 + (x2 * pdf x2 - x1 * pdf x1) * den) / den ^ 2 := by
      field_simp
      ring
    rw [goal_eq]
    apply (div_le_one (by positivity)).2
    nlinarith [hcs]

/-! ### Unfolding helpers for the update functions -/

theorem TrueSkill.update_win (env : TrueSkill) (t1 t2 : List Rating) :
    env.update t1 t2 Score.Win = env.updateCore t1 t2 Score.Win := by
  unfold TrueSkill.update
  rw [if_neg (fun h => Score.noConfusion h)]

theorem TrueSkill.update_draw (env : TrueSkill) (t1 t2 : List Rating) :
    env.update t1 t2 Score.Draw = env.updateCore t1 t2 Score.Draw := by
  unfold TrueSkill.update
  rw [if_neg (fun h => Score.noConfusion h)]

theorem TrueSkill.update_loss (env : TrueSkill) (t1 t2 : List Rating) :
    env.update t1 t2 Score.Loss
      = ((env.updateCore t2 t1 Score.Win).2, (env.updateCore t2 t1 Score.Win).1) := by
  unfold TrueSkill.update
  rw [if_pos rfl]

theorem SimpleTrueSkill.simple_update_win (env : SimpleTrueSkill) (t1 t2 : List Rating) :
    env.update t1 t2 Score.Win = env.updateCore t1 t2 Score.Win := by
  unfold SimpleTrueSkill.update
  rw [if_neg (fun h => Score.noConfusion h)]

theorem SimpleTrueSkill.simple_update_loss (env : SimpleTrueSkill) (t1 t2 : List Rating) :
    env.update t1 t2 Score.Loss
      = ((env.updateCore t2 t1 Score.Win).2, (env.updateCore t2 t1 Score.Win).1) := by
  unfold SimpleTrueSkill.update
  rw [if_pos rfl]

/-! ### List and `Rating.sum` helpers -/

theorem getD_map {α β : Type} (f : α → β) (l : List α) (d : β) (d' : α) :
    ∀ i, i < l.length → (l.map f).getD i d = f (l.getD i d') := by
  induction l with
  | nil => intro i hi; simp at hi
  | cons a l ih =>
    intro i hi
    cases i with
    | zero => simp
    | succ n =>
      simp only [List.map_cons, List.getD_cons_succ]
      exact ih n (by simpa using hi)

theorem Rating.foldl_variance (l : List Rating) (init : Rating) :
    (l.foldl (· + ·) init).variance = init.variance + (l.map Rating.variance).sum := by
  induction l generalizing init with
  | nil => simp
  | cons a l ih =>
    rw [List.foldl_cons, ih]
    simp only [List.map_cons, List.sum_cons, Rating.add_def]
    ring

theorem Rating.foldl_mean (l : List Rating) (init : Rating) :
    (l.foldl (· + ·) init).mean = init.mean + (l.map Rating.mean).sum := by
  induction l generalizing init with
  | nil => simp
  | cons a l ih =>
    rw [List.foldl_cons, ih]
    simp only [List.map_cons, List.sum_cons, Rating.add_def]
    ring

theorem Rating.sum_variance (l : List Rating) :
    (Rating.sum l).variance = (l.map Rating.variance).sum := by
  unfold Rating.sum
  rw [Rating.foldl_variance]
  norm_num

theorem Rating.sum_mean (l : List Rating) :
    (Rating.sum l).mean = (l.map Rating.mean).sum := by
  unfold Rating.sum
  rw [Rating.foldl_mean]
  norm_num

theorem Gen.gen_update_win (env : TrueSkill) (t1 t2 : List Gen.Rating) :
    Gen.update env t1 t2 Score.Win = Gen.updateCore env t1 t2 Score.Win := by
  unfold Gen.update
  rw [if_neg (fun h => Score.noConfusion h)]

theorem Gen.gen_update_draw (env : TrueSkill) (t1 t2 : List Gen.Rating) :
    Gen.update env t1 t2 Score.Draw = Gen.updateCore env t1 t2 Score.Draw := by
  unfold Gen.update
  rw [if_neg (fun h => Score.noConfusion h)]

theorem Gen.gen_update_loss (env : TrueSkill) (t1 t2 : List Gen.Rating) :
    Gen.update env t1 t2 Score.Loss
      = ((Gen.updateCore env t2 t1 Score.Win).2, (Gen.updateCore env t2 t1 Score.Win).1) := by
  unfold Gen.update
  rw [if_pos rfl]

@[simp] theorem Rating.mk_mean (a b : ℝ) : (Rating.mk a b).mean = a := rfl

@[simp] theorem Rating.mk_variance (a b : ℝ) : (Rating.mk a b).variance = b := rfl

theorem mem_of_getD {α : Type} (l : List α) (i : ℕ) (d : α) (h : i < l.length) :
    l.getD i d ∈ l := by
  rw [List.getD_eq_getElem l d h]
  exact List.getElem_mem h

theorem mean_up (m V c v : ℝ) (hV : 0 ≤ V) (hc : 0 ≤ c) (hv : 0 ≤ v) :
    m ≤ m + 0 + 1 * V / c * v := by
  have h : 0 ≤ 1 * V / c * v := mul_nonneg (div_nonneg (by linarith) hc) hv
  linarith

theorem mean_down (m V c v : ℝ) (hV : 0 ≤ V) (hc : 0 ≤ c) (hv : 0 ≤ v) :
    m + 0 + (-1) * V / c * v ≤ m := by
  have h : 0 ≤ 1 * V / c * v := mul_nonneg (div_nonneg (by linarith) hc) hv
  have e : (-1) * V / c * v = -(1 * V / c * v) := by ring
  linarith [h, e]

theorem var_step_le (V c2 w : ℝ) (hV : 0 ≤ V) (hc2 : 0 ≤ c2) (hw : 0 ≤ w) :
    V * (1 - V / c2 * w) ≤ V := by
  have h : 0 ≤ V * (V / c2 * w) := mul_nonneg hV (mul_nonneg (div_nonneg hV hc2) hw)
  nlinarith [h]

theorem var_step_nonneg (V c2 w : ℝ) (hV : 0 ≤ V) (hVc : V ≤ c2) (hw : w ≤ 1) :
    0 ≤ V * (1 - V / c2 * w) := by
  rcases eq_or_lt_of_le (hV.trans hVc) with h0 | hpos
  · have hV0 : V = 0 := le_antisymm (h0 ▸ hVc) hV
    rw [hV0]
    norm_num
  · have hk1 : V / c2 ≤ 1 := (div_le_one hpos).2 hVc
    have hk0 : 0 ≤ V / c2 := div_nonneg hV hpos.le
    have hle : V / c2 * w ≤ 1 := by
      rcases le_or_lt w 0 with hw0 | hw0
      · have := mul_nonpos_of_nonneg_of_nonpos hk0 hw0
        linarith
      · calc V / c2 * w ≤ 1 * 1 := mul_le_mul hk1 hw hw0.le zero_le_one
          _ = 1 := by norm_num
    exact mul_nonneg hV (by linarith)

theorem sum_dyn_variance_nonneg (l : List Rating) (tau : ℝ)
    (hl : ∀ r ∈ l, 0 ≤ r.variance) :
    0 ≤ (Rating.sum (l.map (fun x => x + ⟨0, tau * tau⟩))).variance := by
  rw [Rating.sum_variance]
  apply List.sum_nonneg
  intro y hy
  obtain ⟨x, hx, rfl⟩ := List.mem_map.1 hy
  obtain ⟨r0, hr0, rfl⟩ := List.mem_map.1 hx
  simp only [Rating.add_def, Rating.mk_variance]
  exact add_nonneg (hl r0 hr0) (mul_self_nonneg tau)

theorem dyn_variance_le_sum (l : List Rating) (tau : ℝ)
    (hl : ∀ r ∈ l, 0 ≤ r.variance) (r0 : Rating) (hr0 : r0 ∈ l) :
    r0.variance + tau * tau
      ≤ (Rating.sum (l.map (fun x => x + ⟨0, tau * tau⟩))).variance := by
  have hnn : ∀ y ∈ (l.map (fun x => x + ⟨0, tau * tau⟩)).map Rating.variance, 0 ≤ y := by
    intro y hy
    obtain ⟨x, hx, rfl⟩ := List.mem_map.1 hy
    obtain ⟨r1, hr1, rfl⟩ := List.mem_map.1 hx
    simp only [Rating.add_def, Rating.mk_variance]
    exact add_nonneg (hl r1 hr1) (mul_self_nonneg tau)
  have hmem : (r0 + (⟨0, tau * tau⟩ : Rating)).variance
      ∈ (l.map (fun x => x + ⟨0, tau * tau⟩)).map Rating.variance :=
    List.mem_map_of_mem Rating.variance (List.mem_map_of_mem _ hr0)
  have h := List.single_le_sum hnn _ hmem
  rw [← Rating.sum_variance] at h
  simpa [Rating.add_def] using h

/-- The per-player closure `f` of `update` keeps variances nonnegative on one
mapped team, given the team's post-dynamics variance is dominated by `c²` and
the correction factor `w` is at most one. -/
theorem mapped_var_nonneg (l : List Rating) (tau c2 c v w mult : ℝ)
    (hl : ∀ r ∈ l, 0 ≤ r.variance)
    (hc2ge : (Rating.sum (l.map (fun x => x + ⟨0, tau * tau⟩))).variance ≤ c2)
    (hw : w ≤ 1) :
    ∀ r ∈ (l.map (fun x => x + ⟨0, tau * tau⟩)).map
        (fun x => Rating.mk (x.mean + mult * x.variance / c * v)
          (x.variance * (1 - x.variance / c2 * w))),
      0 ≤ r.variance := by
  intro r hr
  obtain ⟨x, hx, rfl⟩ := List.mem_map.1 hr
  obtain ⟨r0, hr0, rfl⟩ := List.mem_map.1 hx
  simp only [Rating.add_def, Rating.mk_variance]
  apply var_step_nonneg
  · exact add_nonneg (hl r0 hr0) (mul_self_nonneg tau)
  · exact le_trans (dyn_variance_le_sum l tau hl r0 hr0) hc2ge
  · exact hw

/-! ## The claims -/

/-- C2: for every environment and all teams, `update(env, A, B, Loss)` equals
`update(env, B, A, Win)` with the two result sequences swapped back, exactly —
for the `trueskill.rs` update and for the generic `update.rs` update. -/
theorem c2_loss_win_duality :
    ∀ (env : TrueSkill) (team1 team2 : List Rating) (g1 g2 : List Gen.Rating),
      TrueSkill.update env team1 team2 Score.Loss
          = ((TrueSkill.update env team2 team1 Score.Win).2,
             (TrueSkill.update env team2 team1 Score.Win).1) ∧
      Gen.update env g1 g2 Score.Loss
          = ((Gen.update env g2 g1 Score.Win).2,
             (Gen.update env g2 g1 Score.Win).1) := by
  intro env t1 t2 g1 g2
  constructor
  · rw [TrueSkill.update_loss, TrueSkill.update_win]
  · rw [Gen.gen_update_loss, Gen.gen_update_win]

/-- C6 (amended): when `c² = 0` — in particular for empty teams — `quality` and
`update` do not fail with any error signal: they are total and deterministically
return plain values (`0` for `quality` in the real model, where the
floating-point code yields `NaN`, and empty lists for `update`).  No
"ill-defined match" guard exists in the code. -/
theorem c6_degenerate_match_returns_values :
    ∀ (env : TrueSkill) (score : Score),
      TrueSkill.quality env [] [] = 0 ∧
      TrueSkill.update env [] [] score = ([], []) ∧
      Gen.quality env [] [] = 0 ∧
      Gen.update env [] [] score = ([], []) := by
  intro env score
  refine ⟨?_, ?_, ?_, ?_⟩
  · simp [TrueSkill.quality, Rating.sum]
  · cases score <;>
      simp [TrueSkill.update_loss, TrueSkill.update_win, TrueSkill.update_draw,
        TrueSkill.updateCore]
  · simp [Gen.quality, Gen.combine]
  · cases score <;>
      simp [Gen.gen_update_loss, Gen.gen_update_win, Gen.gen_update_draw, Gen.updateCore]

/-- C6 counterexample: at the concrete degenerate configuration `c² = 0`
(zero β, empty teams), `quality` returns the ordinary value `0` and `update`
returns ordinary lists — there is no deterministic "ill-defined match" error
signal, contradicting the claim that the code fails instead of computing
through. -/
theorem c6_counterexample :
    TrueSkill.quality ⟨0, 0, 0, 0, 0⟩ [] [] = 0 ∧
    TrueSkill.update ⟨0, 0, 0, 0, 0⟩ [] [] Score.Win = ([], []) := by
  constructor
  · simp [TrueSkill.quality, Rating.sum]
  · simp [TrueSkill.update_win, TrueSkill.updateCore]

/-- C10: `quality` reads only the `beta` field of the environment: two
environments agreeing on `beta` produce identical qualities on all teams, in
both the `trueskill.rs` and the `matchmaking.rs` implementation. -/
theorem c10_quality_depends_only_on_beta (e1 e2 : TrueSkill) (hbeta : e1.beta = e2.beta) :
    (∀ t1 t2 : List Rating, TrueSkill.quality e1 t1 t2 = TrueSkill.quality e2 t1 t2) ∧
    (∀ g1 g2 : List Gen.Rating, Gen.quality e1 g1 g2 = Gen.quality e2 g1 g2) := by
  constructor
  · intro t1 t2
    simp only [TrueSkill.quality]
    rw [hbeta]
  · intro g1 g2
    simp only [Gen.quality]
    rw [hbeta]

/-! ### Facts about `combinations`, `teamsOf` and the `balance` fold -/

theorem Gen.mem_combinations :
    ∀ (l : List ℕ) (k : ℕ) (v : List ℕ), v ∈ Gen.combinations k l →
      v.length = k ∧ v.Sublist l := by
  intro l
  induction l with
  | nil =>
    intro k v h
    cases k with
    | zero =>
      simp only [Gen.combinations, List.mem_singleton] at h
      subst h
      simp
    | succ n => simp [Gen.combinations] at h
  | cons x xs ih =>
    intro k v h
    cases k with
    | zero =>
      simp only [Gen.combinations, List.mem_singleton] at h
      subst h
      simp
    | succ n =>
      simp only [Gen.combinations, List.mem_append, List.mem_map] at h
      rcases h with ⟨u, hu, rfl⟩ | h
      · obtain ⟨hlen, hsub⟩ := ih n u hu
        exact ⟨by simp [hlen], hsub.cons₂ x⟩
      · obtain ⟨hlen, hsub⟩ := ih (n + 1) v h
        exact ⟨hlen, hsub.cons x⟩

theorem Gen.combinations_ne_nil :
    ∀ (l : List ℕ) (k : ℕ), k ≤ l.length → Gen.combinations k l ≠ [] := by
  intro l
  induction l with
  | nil =>
    intro k hk
    have hk0 : k = 0 := by simpa using hk
    subst hk0
    simp [Gen.combinations]
  | cons x xs ih =>
    intro k hk
    cases k with
    | zero => simp [Gen.combinations]
    | succ n =>
      simp only [Gen.combinations]
      intro heq
      rw [List.append_eq_nil] at heq
      have h1 := heq.1
      rw [List.map_eq_nil_iff] at h1
      exact ih n (by simpa using hk) h1

theorem Gen.teamsOf_fst_mem_zero (len : ℕ) (v : List ℕ) (hlen : 0 < len)
    (h0 : ¬ 0 ∈ v) : 0 ∈ (Gen.teamsOf len v).1 := by
  simp only [Gen.teamsOf, List.mem_filter, List.mem_range]
  refine ⟨hlen, ?_⟩
  simp [h0]

theorem Gen.teamsOf_disjoint (len : ℕ) (v : List ℕ) :
    List.Disjoint (Gen.teamsOf len v).1 (Gen.teamsOf len v).2 := by
  intro a h1 h2
  simp only [Gen.teamsOf, List.mem_filter] at h1 h2
  have hb1 := h1.2
  have hb2 := h2.2
  rw [hb2] at hb1
  simp at hb1

theorem Gen.teamsOf_perm (len : ℕ) (v : List ℕ) :
    ((Gen.teamsOf len v).1 ++ (Gen.teamsOf len v).2).Perm (List.range len) := by
  have h := List.filter_append_perm (fun i => !(v.contains i)) (List.range len)
  have hfun : (fun x => !!(v.contains x)) = fun x => v.contains x := by
    funext x
    simp
  rw [hfun] at h
  exact h

theorem Gen.teamsOf_snd_length (len : ℕ) (v : List ℕ) (hnodup : v.Nodup)
    (hmem : ∀ i ∈ v, i < len) : (Gen.teamsOf len v).2.length = v.length := by
  have hperm : ((List.range len).filter (fun i => v.contains i)).Perm v := by
    apply List.perm_of_nodup_nodup_toFinset_eq
    · exact (List.nodup_range len).filter _
    · exact hnodup
    · ext a
      simp only [List.mem_toFinset, List.mem_filter, List.mem_range]
      constructor
      · intro h
        exact List.elem_iff.1 h.2
      · intro h
        exact ⟨hmem a h, List.elem_iff.2 h⟩
  exact hperm.length_eq

theorem Gen.quality_nil (env : TrueSkill) : Gen.quality env [] [] = 0 := by
  simp [Gen.quality, Gen.combine]

theorem Gen.quality_pos (env : TrueSkill) (t1 t2 : List Gen.Rating)
    (hb : env.beta ≠ 0) (hn : 1 ≤ t1.length + t2.length) :
    0 < Gen.quality env t1 t2 := by
  simp only [Gen.quality]
  have hbb : 0 < env.beta * env.beta := mul_self_pos.2 hb
  have hnb : 0 < ((t1.length + t2.length : ℕ) : ℝ) * env.beta * env.beta := by
    rw [mul_assoc]
    apply mul_pos _ hbb
    exact_mod_cast Nat.lt_of_lt_of_le Nat.zero_lt_one hn
  apply mul_pos
  · apply Real.sqrt_pos.2
    apply div_pos hnb
    nlinarith [mul_self_nonneg (Gen.combine t1).sigma, mul_self_nonneg (Gen.combine t2).sigma]
  · exact Real.exp_pos _

theorem Gen.balanceStep_spec (env : TrueSkill) (players : List Gen.Rating)
    (b : ℝ × Option (List ℕ × List ℕ)) (v : List ℕ) :
    b.1 ≤ (Gen.balanceStep env players b v).1 ∧
    Gen.balQuality env players (Gen.teamsOf players.length v)
        ≤ (Gen.balanceStep env players b v).1 ∧
    (Gen.balanceStep env players b v = b ∨
      ((Gen.balanceStep env players b v).2 = some (Gen.teamsOf players.length v) ∧
       (Gen.balanceStep env players b v).1
         = Gen.balQuality env players (Gen.teamsOf players.length v))) := by
  simp only [Gen.balanceStep]
  by_cases hlt : b.1 < Gen.balQuality env players (Gen.teamsOf players.length v)
  · rw [if_pos hlt]
    exact ⟨hlt.le, le_refl _, Or.inr ⟨rfl, rfl⟩⟩
  · rw [if_neg hlt]
    exact ⟨le_refl _, le_of_not_lt hlt, Or.inl rfl⟩

theorem Gen.balance_foldl_spec (env : TrueSkill) (players : List Gen.Rating) :
    ∀ (l : List (List ℕ)) (b : ℝ × Option (List ℕ × List ℕ)),
      b.1 ≤ (l.foldl (Gen.balanceStep env players) b).1 ∧
      (∀ v ∈ l, Gen.balQuality env players (Gen.teamsOf players.length v)
          ≤ (l.foldl (Gen.balanceStep env players) b).1) ∧
      ((l.foldl (Gen.balanceStep env players) b) = b ∨
        ∃ v ∈ l, (l.foldl (Gen.balanceStep env players) b).2
              = some (Gen.teamsOf players.length v) ∧
          (l.foldl (Gen.balanceStep env players) b).1
              = Gen.balQuality env players (Gen.teamsOf players.length v)) := by
  intro l
  induction l with
  | nil =>
    intro b
    refine ⟨le_refl _, ?_, Or.inl rfl⟩
    simp
  | cons v vs ih =>
    intro b
    rw [List.foldl_cons]
    obtain ⟨ih1, ih2, ih3⟩ := ih (Gen.balanceStep env players b v)
    obtain ⟨hs1, hs2, hs3⟩ := Gen.balanceStep_spec env players b v
    refine ⟨hs1.trans ih1, ?_, ?_⟩
    · intro u hu
      rcases List.mem_cons.1 hu with rfl | hu'
      · exact hs2.trans ih1
      · exact ih2 u hu'
    · rcases ih3 with heq | ⟨u, hu, h2⟩
      · rcases hs3 with hb | ⟨hsome, hval⟩
        · exact Or.inl (heq.trans hb)
        · refine Or.inr ⟨v, List.mem_cons_self v vs, ?_, ?_⟩
          · rw [heq]
            exact hsome
          · rw [heq]
            exact hval
      · exact Or.inr ⟨u, List.mem_cons_of_mem _ hu, h2⟩

/-- C1 (amended): for every call to `update` with score Win on inputs with
positive `c²` and nonnegative variances, every player's new mean in the
winning team1 is `≥` that player's pre-update mean, every player's new mean
in the losing team2 is `≤` that player's pre-update mean, and every resulting
variance is `≤` the corresponding post-dynamics variance, i.e. the pre-update
variance plus `τ²`.  (The resulting variance can exceed the pre-update
variance itself whenever `τ > 0`; see the counterexample.) -/
theorem c1_update_win_monotone (env : TrueSkill) (team1 team2 : List Rating)
    (hc2 : 0 < TrueSkill.c2val env team1 team2)
    (h1 : ∀ r ∈ team1, 0 ≤ r.variance) (h2 : ∀ r ∈ team2, 0 ≤ r.variance) :
    (∀ i, i < team1.length →
      (team1.getD i ⟨0, 0⟩).mean
          ≤ ((TrueSkill.update env team1 team2 Score.Win).1.getD i ⟨0, 0⟩).mean ∧
      ((TrueSkill.update env team1 team2 Score.Win).1.getD i ⟨0, 0⟩).variance
          ≤ (team1.getD i ⟨0, 0⟩).variance + env.tau * env.tau) ∧
    (∀ i, i < team2.length →
      ((TrueSkill.update env team1 team2 Score.Win).2.getD i ⟨0, 0⟩).mean
          ≤ (team2.getD i ⟨0, 0⟩).mean ∧
      ((TrueSkill.update env team1 team2 Score.Win).2.getD i ⟨0, 0⟩).variance
          ≤ (team2.getD i ⟨0, 0⟩).variance + env.tau * env.tau) := by
  simp only [TrueSkill.c2val] at hc2
  simp only [TrueSkill.update_win, TrueSkill.updateCore]
  constructor
  · intro i hi
    rw [getD_map _ _ _ (Rating.mk 0 0) i (by simpa using hi),
        getD_map _ _ _ (Rating.mk 0 0) i hi]
    have hr : team1.getD i ⟨0, 0⟩ ∈ team1 := mem_of_getD team1 i _ hi
    have hV : 0 ≤ (team1.getD i ⟨0, 0⟩).variance + env.tau * env.tau :=
      add_nonneg (h1 _ hr) (mul_self_nonneg _)
    simp only [Rating.add_def, Rating.mk_mean, Rating.mk_variance]
    constructor
    · exact mean_up _ _ _ _ hV (Real.sqrt_nonneg _) (vw_fst_pos _ _).le
    · exact var_step_le _ _ _ hV hc2.le (vw_snd_nonneg _ _)
  · intro i hi
    rw [getD_map _ _ _ (Rating.mk 0 0) i (by simpa using hi),
        getD_map _ _ _ (Rating.mk 0 0) i hi]
    have hr : team2.getD i ⟨0, 0⟩ ∈ team2 := mem_of_getD team2 i _ hi
    have hV : 0 ≤ (team2.getD i ⟨0, 0⟩).variance + env.tau * env.tau :=
      add_nonneg (h2 _ hr) (mul_self_nonneg _)
    simp only [Rating.add_def, Rating.mk_mean, Rating.mk_variance]
    constructor
    · exact mean_down _ _ _ _ hV (Real.sqrt_nonneg _) (vw_fst_pos _ _).le
    · exact var_step_le _ _ _ hV hc2.le (vw_snd_nonneg _ _)

/-- C1 witness: a concrete Win update with `τ = 0`. -/
theorem c1_witness :
    (([(⟨0, 1⟩ : Rating)].getD 0 ⟨0, 0⟩).mean
        ≤ ((TrueSkill.update ⟨0, 0, 1, 0, 0⟩ [⟨0, 1⟩] [⟨0, 1⟩] Score.Win).1.getD 0
            ⟨0, 0⟩).mean ∧
      ((TrueSkill.update ⟨0, 0, 1, 0, 0⟩ [⟨0, 1⟩] [⟨0, 1⟩] Score.Win).1.getD 0
            ⟨0, 0⟩).variance
        ≤ (([(⟨0, 1⟩ : Rating)]).getD 0 ⟨0, 0⟩).variance
            + (0 : ℝ) * 0) := by
  have h := (c1_update_win_monotone ⟨0, 0, 1, 0, 0⟩ [⟨0, 1⟩] [⟨0, 1⟩]
    (by simp [TrueSkill.c2val, Rating.sum]; norm_num)
    (by intro r hr; rw [List.mem_singleton] at hr; subst hr; norm_num)
    (by intro r hr; rw [List.mem_singleton] at hr; subst hr; norm_num)).1 0 (by norm_num)
  simpa using h

/-- C7 (amended): for every call to `update` with nonnegative input variances
and, for a Draw, a nonnegative draw margin (as produced by any
`draw_probability ∈ [0, 1)`), each returned variance is `≥ 0`.  The code
contains no clamping: nonnegativity holds arithmetically because the factor
`1 - (variance/c²)·w` cannot go negative there.  With a negative input
variance a negative variance does reach the caller (see the counterexample). -/
theorem c7_update_variance_nonneg (env : TrueSkill) (team1 team2 : List Rating)
    (score : Score)
    (h1 : ∀ r ∈ team1, 0 ≤ r.variance) (h2 : ∀ r ∈ team2, 0 ≤ r.variance)
    (hm : 0 ≤ TrueSkill.draw_margin env.draw_probability
        ((team1.length + team2.length : ℕ) : ℝ) env.beta) :
    (∀ r ∈ (TrueSkill.update env team1 team2 score).1, 0 ≤ r.variance) ∧
    (∀ r ∈ (TrueSkill.update env team1 team2 score).2, 0 ≤ r.variance) := by
  have key : ∀ (t1 t2 : List Rating),
      (∀ r ∈ t1, 0 ≤ r.variance) → (∀ r ∈ t2, 0 ≤ r.variance) →
      ∀ (s : Score),
      (s = Score.Draw → 0 ≤ TrueSkill.draw_margin env.draw_probability
          ((t1.length + t2.length : ℕ) : ℝ) env.beta) →
      (∀ r ∈ (env.updateCore t1 t2 s).1, 0 ≤ r.variance) ∧
      (∀ r ∈ (env.updateCore t1 t2 s).2, 0 ≤ r.variance) := by
    intro t1 t2 ht1 ht2 s hs
    have hnb : 0 ≤ ((t1.length + t2.length : ℕ) : ℝ) * env.beta * env.beta := by
      rw [mul_assoc]
      exact mul_nonneg (Nat.cast_nonneg _) (mul_self_nonneg _)
    have hs1 := sum_dyn_variance_nonneg t1 env.tau ht1
    have hs2 := sum_dyn_variance_nonneg t2 env.tau ht2
    cases s with
    | Win =>
      simp only [TrueSkill.updateCore]
      exact ⟨mapped_var_nonneg t1 env.tau _ _ _ _ 1 ht1 (by linarith)
          (vw_snd_le_one _ _),
        mapped_var_nonneg t2 env.tau _ _ _ _ (-1) ht2 (by linarith)
          (vw_snd_le_one _ _)⟩
    | Loss =>
      simp only [TrueSkill.updateCore]
      exact ⟨mapped_var_nonneg t1 env.tau _ _ _ _ 1 ht1 (by linarith)
          (vw_snd_le_one _ _),
        mapped_var_nonneg t2 env.tau _ _ _ _ (-1) ht2 (by linarith)
          (vw_snd_le_one _ _)⟩
    | Draw =>
      simp only [TrueSkill.updateCore]
      have heps : 0 ≤ TrueSkill.draw_margin env.draw_probability
          ((t1.length + t2.length : ℕ) : ℝ) env.beta / Real.sqrt
            (((t1.length + t2.length : ℕ) : ℝ) * env.beta * env.beta
              + (Rating.sum (t1.map (fun x => x + ⟨0, env.tau * env.tau⟩))).variance
              + (Rating.sum (t2.map (fun x => x + ⟨0, env.tau * env.tau⟩))).variance) :=
        div_nonneg (hs rfl) (Real.sqrt_nonneg _)
      exact ⟨mapped_var_nonneg t1 env.tau _ _ _ _ 1 ht1 (by linarith)
          (vw_draw_snd_le_one _ _ heps),
        mapped_var_nonneg t2 env.tau _ _ _ _ (-1) ht2 (by linarith)
          (vw_draw_snd_le_one _ _ heps)⟩
  cases score with
  | Win =>
    rw [TrueSkill.update_win]
    exact key team1 team2 h1 h2 Score.Win (fun h => Score.noConfusion h)
  | Draw =>
    rw [TrueSkill.update_draw]
    exact key team1 team2 h1 h2 Score.Draw (fun _ => hm)
  | Loss =>
    rw [TrueSkill.update_loss]
    have h := key team2 team1 h2 h1 Score.Win (fun h => Score.noConfusion h)
    exact ⟨h.2, h.1⟩

/-- C7 witness: a concrete Draw update with `draw_probability = 0`, evaluated
at the first returned player of team1. -/
theorem c7_witness :
    0 ≤ ((TrueSkill.update ⟨0, 0, 1, 1, 0⟩ [⟨0, 1⟩] [⟨2, 3⟩] Score.Draw).1.getD 0
      ⟨0, 0⟩).variance := by
  have hlen : 0 < (TrueSkill.update ⟨0, 0, 1, 1, 0⟩ [⟨0, 1⟩] [⟨2, 3⟩]
      Score.Draw).1.length := by
    simp [TrueSkill.update_draw, TrueSkill.updateCore]
  exact (c7_update_variance_nonneg ⟨0, 0, 1, 1, 0⟩ [⟨0, 1⟩] [⟨2, 3⟩] Score.Draw
    (by intro r hr; rw [List.mem_singleton] at hr; subst hr; norm_num)
    (by intro r hr; rw [List.mem_singleton] at hr; subst hr; norm_num)
    (by rw [show ((⟨0, 0, 1, 1, 0⟩ : TrueSkill)).draw_probability = 0 from rfl,
          draw_margin_zero])).1 _ (mem_of_getD _ 0 _ hlen)

/-- Evaluation of the win factors for evenly matched teams without margin. -/
theorem vw_zero_zero : TrueSkill.vw 0 0 = (2 / Real.sqrt (2 * π), 2 / π) := by
  have hK : (0:ℝ) < Real.sqrt (2 * π) := Real.sqrt_pos.2 (by positivity)
  have hKK : Real.sqrt (2 * π) * Real.sqrt (2 * π) = 2 * π :=
    Real.mul_self_sqrt (by positivity)
  have hpdf : pdf 0 = 1 / Real.sqrt (2 * π) := by
    unfold pdf
    norm_num
  simp only [TrueSkill.vw, sub_zero, add_zero]
  rw [hpdf, cdf_zero]
  have h1 : 1 / Real.sqrt (2 * π) / (1 / 2) = 2 / Real.sqrt (2 * π) := by
    field_simp
  rw [h1]
  have h2 : 2 / Real.sqrt (2 * π) * (2 / Real.sqrt (2 * π)) = 2 / π := by
    rw [div_mul_div_comm, hKK]
    rw [show (2:ℝ) * 2 = 2 * 2 from rfl]
    rw [mul_div_mul_left 2 π (by norm_num : (2:ℝ) ≠ 0)]
  rw [h2]

/-- C1 counterexample: with `τ = 1` and pre-update variance `0`, the Win
update returns a strictly larger variance than the pre-update variance —
the claim's bound "resulting variance ≤ pre-update variance" fails at this
input (it only holds against the post-dynamics variance). -/
theorem c1_counterexample :
    (([(⟨0, 0⟩ : Rating)]).getD 0 ⟨0, 0⟩).variance
      < ((TrueSkill.update ⟨0, 0, 1, 1, 0⟩ [⟨0, 0⟩] [⟨0, 0⟩] Score.Win).1.getD 0
          ⟨0, 0⟩).variance := by
  rw [TrueSkill.update_win]
  simp only [TrueSkill.updateCore, List.map_cons, List.map_nil, Rating.add_def,
    Rating.mk_mean, Rating.mk_variance, List.getD_cons_zero, List.length_cons,
    List.length_nil, Rating.sum, List.foldl_cons, List.foldl_nil, draw_margin_zero]
  norm_num
  rw [vw_zero_zero]
  norm_num
  have ht : 2 / π < 1 := by
    rw [div_lt_one Real.pi_pos]
    nlinarith [Real.pi_gt_three]
  have ht0 : 0 < 2 / π := by positivity
  linarith

/-- C7 counterexample: with a negative input variance, `update` returns a
negative variance — no clamping exists, and a negative variance reaches the
caller. -/
theorem c7_counterexample :
    ((TrueSkill.update ⟨0, 0, 2, 0, 0⟩ [⟨0, -5⟩] [⟨0, 0⟩] Score.Win).1.getD 0
        ⟨0, 0⟩).variance < 0 := by
  rw [TrueSkill.update_win]
  simp only [TrueSkill.updateCore, List.map_cons, List.map_nil, Rating.add_def,
    Rating.mk_mean, Rating.mk_variance, List.getD_cons_zero, List.length_cons,
    List.length_nil, Rating.sum, List.foldl_cons, List.foldl_nil, draw_margin_zero]
  norm_num
  rw [vw_zero_zero]
  norm_num
  have ht0 : 0 < 2 / π := by positivity
  linarith

/-- C3: the bipartition returned by `balance` maximizes `quality` over the
searched bipartitions: no enumerated bipartition of the roster has strictly
higher quality than the returned one. -/
theorem c3_balance_maximizes (env : TrueSkill) (players : List Gen.Rating) :
    ∀ v ∈ Gen.combinations (players.length / 2) (List.range' 1 (players.length - 1)),
      Gen.balQuality env players (Gen.teamsOf players.length v)
        ≤ Gen.balQuality env players (Gen.balance env players) := by
  intro v hv
  obtain ⟨h1, h2, h3⟩ := Gen.balance_foldl_spec env players
    (Gen.combinations (players.length / 2) (List.range' 1 (players.length - 1))) (0, none)
  have hq := h2 v hv
  unfold Gen.balance
  rcases h3 with heq | ⟨u, hu, hsome, hval⟩
  · rw [heq] at hq ⊢
    simp only [Option.getD_none]
    have hnil : Gen.balQuality env players ([], []) = 0 := by
      have : Gen.pick players ([] : List ℕ) = [] := rfl
      simp [Gen.balQuality, this, Gen.quality_nil]
    rw [hnil]
    simpa using hq
  · rw [hsome]
    simp only [Option.getD_some]
    rw [← hval]
    exact hq

/-- C3 witness: a two-player roster and the only enumerated bipartition. -/
theorem c3_witness :
    Gen.balQuality ⟨0, 0, 1, 0, 0⟩ [⟨0, 1⟩, ⟨0, 1⟩]
        (Gen.teamsOf ([(⟨0, 1⟩ : Gen.Rating), ⟨0, 1⟩].length) [1])
      ≤ Gen.balQuality ⟨0, 0, 1, 0, 0⟩ [⟨0, 1⟩, ⟨0, 1⟩]
          (Gen.balance ⟨0, 0, 1, 0, 0⟩ [⟨0, 1⟩, ⟨0, 1⟩]) :=
  c3_balance_maximizes ⟨0, 0, 1, 0, 0⟩ [⟨0, 1⟩, ⟨0, 1⟩] [1] (by decide)

/-- C4 (amended): for an environment with `β ≠ 0`, `balance` on an empty
roster returns two empty index sets without error, and on a non-empty roster
returns two disjoint index sets whose concatenation is a permutation of the
full index range `0..players.len()`, with index 0 pinned to the first set and
the second set of size `⌊len/2⌋`.  (Without the `β ≠ 0` restriction every
candidate quality is `0`, no candidate beats the initial best, and `balance`
returns `([], [])` even for a non-empty roster; see the counterexample.) -/
theorem c4_balance_partition (env : TrueSkill) (players : List Gen.Rating)
    (hb : env.beta ≠ 0) :
    (players = [] → Gen.balance env players = ([], [])) ∧
    (players ≠ [] →
      0 ∈ (Gen.balance env players).1 ∧
      (Gen.balance env players).2.length = players.length / 2 ∧
      List.Disjoint (Gen.balance env players).1 (Gen.balance env players).2 ∧
      ((Gen.balance env players).1 ++ (Gen.balance env players).2).Perm
        (List.range players.length)) := by
  constructor
  · intro hnil
    subst hnil
    unfold Gen.balance
    simp [Gen.combinations, Gen.balanceStep, Gen.teamsOf, Gen.balQuality, Gen.pick,
      Gen.quality_nil]
  · intro hne
    have hlen : 1 ≤ players.length := List.length_pos.2 hne
    obtain ⟨h1, h2, h3⟩ := Gen.balance_foldl_spec env players
      (Gen.combinations (players.length / 2) (List.range' 1 (players.length - 1)))
      (0, none)
    rcases h3 with heq | ⟨u, hu, hsome, hval⟩
    · exfalso
      have hcand : Gen.combinations (players.length / 2)
          (List.range' 1 (players.length - 1)) ≠ [] := by
        apply Gen.combinations_ne_nil
        rw [List.length_range']
        omega
      obtain ⟨v0, hv0⟩ := List.exists_mem_of_ne_nil _ hcand
      have hq0 := h2 v0 hv0
      rw [heq] at hq0
      obtain ⟨hvlen, hvsub⟩ := Gen.mem_combinations _ _ _ hv0
      have hperm := Gen.teamsOf_perm players.length v0
      have hsum : (Gen.teamsOf players.length v0).1.length
          + (Gen.teamsOf players.length v0).2.length = players.length := by
        have := hperm.length_eq
        simpa [List.length_append, List.length_range] using this
      have hpos : 0 < Gen.balQuality env players (Gen.teamsOf players.length v0) := by
        apply Gen.quality_pos env _ _ hb
        simp only [Gen.pick, List.length_map]
        omega
      simp only at hq0
      linarith
    · obtain ⟨hvlen, hvsub⟩ := Gen.mem_combinations _ _ _ hu
      have hvmem : ∀ i ∈ u, 1 ≤ i ∧ i < players.length := by
        intro i hi
        have h := hvsub.subset hi
        rw [List.mem_range'_1] at h
        omega
      have hnodup : u.Nodup := (List.nodup_range' 1 (players.length - 1)).sublist hvsub

      have hres : Gen.balance env players = Gen.teamsOf players.length u := by
        unfold Gen.balance
        rw [hsome]
        rfl
      rw [hres]
      refine ⟨?_, ?_, ?_, ?_⟩
      · apply Gen.teamsOf_fst_mem_zero _ _ (by omega)
        intro h0
        have := (hvmem 0 h0).1
        omega
      · rw [Gen.teamsOf_snd_length _ _ hnodup (fun i hi => (hvmem i hi).2), hvlen]
      · exact Gen.teamsOf_disjoint _ _
      · exact Gen.teamsOf_perm _ _

/-- C4 counterexample: with `β = 0` and a non-empty roster, `balance` returns
`([], [])`, whose union is not the full index range (index 0 is in neither
set), contradicting the claim as stated for every players slice. -/
theorem c4_counterexample :
    ¬ (((Gen.balance ⟨0, 0, 0, 0, 0⟩ [⟨0, 1⟩]).1
        ++ (Gen.balance ⟨0, 0, 0, 0, 0⟩ [⟨0, 1⟩]).2).Perm
          (List.range [(⟨0, 1⟩ : Gen.Rating)].length)) := by
  have heval : Gen.balance ⟨0, 0, 0, 0, 0⟩ [⟨0, 1⟩] = ([], []) := by
    unfold Gen.balance
    simp only [List.length_cons, List.length_nil]
    norm_num [Gen.combinations, Gen.balanceStep, Gen.teamsOf, Gen.balQuality,
      Gen.pick, Gen.quality, Gen.combine, List.range', List.range]
  rw [heval]
  intro h
  have hlen := h.length_eq
  simp at hlen

/-- C4 witness: a one-player roster in a non-degenerate environment. -/
theorem c4_witness :
    0 ∈ (Gen.balance ⟨0, 0, 1, 0, 0⟩ [⟨0, 1⟩]).1 ∧
    (Gen.balance ⟨0, 0, 1, 0, 0⟩ [⟨0, 1⟩]).2.length
        = [(⟨0, 1⟩ : Gen.Rating)].length / 2 ∧
    List.Disjoint (Gen.balance ⟨0, 0, 1, 0, 0⟩ [⟨0, 1⟩]).1
      (Gen.balance ⟨0, 0, 1, 0, 0⟩ [⟨0, 1⟩]).2 ∧
    ((Gen.balance ⟨0, 0, 1, 0, 0⟩ [⟨0, 1⟩]).1
        ++ (Gen.balance ⟨0, 0, 1, 0, 0⟩ [⟨0, 1⟩]).2).Perm
      (List.range [(⟨0, 1⟩ : Gen.Rating)].length) :=
  (c4_balance_partition ⟨0, 0, 1, 0, 0⟩ [⟨0, 1⟩] one_ne_zero).2 (by simp)

/-- C8: for a plausible draw (`0 < ε`, `|t| ≤ ε`) the draw correction factors
satisfy `w > v²`, for both sign-convention variants present in the code
(`TrueSkill::vw_draw` in `trueskill.rs` and `w_draw`/`v_draw` in `update.rs`). -/
theorem c8_draw_w_gt_v_sq (t eps : ℝ) (heps : 0 < eps) (ht : |t| ≤ eps) :
    ((TrueSkill.vw_draw t eps).1) ^ 2 < (TrueSkill.vw_draw t eps).2 ∧
    (Gen.v_draw t eps) ^ 2 < Gen.w_draw t eps := by
  obtain ⟨htl, htr⟩ := abs_le.1 ht
  constructor
  · simp only [TrueSkill.vw_draw]
    set x1 : ℝ := -eps - t with hx1
    set x2 : ℝ := eps - t with hx2
    have hlt : x1 < x2 := by rw [hx1, hx2]; linarith
    have hden : 0 < cdf x2 - cdf x1 := sub_pos.2 (cdf_lt_cdf hlt)
    rw [show pdf (-x1) = pdf x1 from pdf_even _]
    have hx2n : 0 ≤ x2 := by rw [hx2]; linarith
    have hx1n : x1 ≤ 0 := by rw [hx1]; linarith
    have hN : 0 < x2 * pdf x2 - x1 * pdf x1 := by
      rcases eq_or_lt_of_le hx2n with h2 | h2
      · have hx1' : x1 < 0 := by rw [hx1]; rw [hx2] at h2; linarith
        nlinarith [pdf_pos x1, pdf_pos x2, mul_pos (neg_pos.2 hx1') (pdf_pos x1)]
      · nlinarith [mul_pos h2 (pdf_pos x2),
          mul_nonneg (neg_nonneg.2 hx1n) (pdf_pos x1).le]
    rw [pow_two]
    have := div_pos hN hden
    linarith
  · simp only [Gen.v_draw, Gen.w_draw]
    have hden : 0 < cdf (eps - t) - cdf (-(eps + t)) := by
      apply sub_pos.2
      apply cdf_lt_cdf
      linarith
    have han : 0 ≤ eps - t := by linarith
    have hbn : 0 ≤ eps + t := by linarith
    have hN : 0 < (eps - t) * pdf (eps - t) + (eps + t) * pdf (eps + t) := by
      rcases eq_or_lt_of_le han with h2 | h2
      · have hb' : 0 < eps + t := by linarith
        nlinarith [pdf_pos (eps - t), mul_pos hb' (pdf_pos (eps + t))]
      · nlinarith [mul_pos h2 (pdf_pos (eps - t)),
          mul_nonneg hbn (pdf_pos (eps + t)).le]
    rw [pow_two]
    have := div_pos hN hden
    linarith

/-- C8 witness: `t = 0`, `ε = 1`. -/
theorem c8_witness :
    ((TrueSkill.vw_draw 0 1).1) ^ 2 < (TrueSkill.vw_draw 0 1).2 ∧
    (Gen.v_draw 0 1) ^ 2 < Gen.w_draw 0 1 :=
  c8_draw_w_gt_v_sq 0 1 (by norm_num) (by norm_num)

/-- C5: for non-degenerate inputs (positive `c²` and, for the
variance-represented `trueskill.rs` surface, nonnegative input variances),
`quality` lies in `[0, 1]` — for both the `trueskill.rs` and the
`matchmaking.rs` implementation. -/
theorem c5_quality_in_unit_interval (env : TrueSkill) :
    (∀ t1 t2 : List Rating, 0 < TrueSkill.qc2 env t1 t2 →
      (∀ r ∈ t1, 0 ≤ r.variance) → (∀ r ∈ t2, 0 ≤ r.variance) →
      0 ≤ TrueSkill.quality env t1 t2 ∧ TrueSkill.quality env t1 t2 ≤ 1) ∧
    (∀ g1 g2 : List Gen.Rating, 0 < Gen.qc2 env g1 g2 →
      0 ≤ Gen.quality env g1 g2 ∧ Gen.quality env g1 g2 ≤ 1) := by
  constructor
  · intro t1 t2 hc2 h1 h2
    have hc2' : 0 < ((t1.length + t2.length : ℕ) : ℝ) * env.beta * env.beta
        + (Rating.sum t1).variance + (Rating.sum t2).variance := hc2
    have hv1 : 0 ≤ (Rating.sum t1).variance := by
      rw [Rating.sum_variance]
      apply List.sum_nonneg
      intro x hx
      obtain ⟨r, hr, rfl⟩ := List.mem_map.1 hx
      exact h1 r hr
    have hv2 : 0 ≤ (Rating.sum t2).variance := by
      rw [Rating.sum_variance]
      apply List.sum_nonneg
      intro x hx
      obtain ⟨r, hr, rfl⟩ := List.mem_map.1 hx
      exact h2 r hr
    simp only [TrueSkill.quality]
    constructor
    · exact mul_nonneg (Real.sqrt_nonneg _) (Real.exp_pos _).le
    · have hnb : 0 ≤ ((t1.length + t2.length : ℕ) : ℝ) * env.beta * env.beta := by
        rw [mul_assoc]
        exact mul_nonneg (Nat.cast_nonneg _) (mul_self_nonneg _)
      have hu : Real.sqrt (((t1.length + t2.length : ℕ) : ℝ) * env.beta * env.beta
          / (((t1.length + t2.length : ℕ) : ℝ) * env.beta * env.beta
            + (Rating.sum t1).variance + (Rating.sum t2).variance)) ≤ 1 := by
        apply Real.sqrt_le_one.2
        rw [div_le_one hc2']
        linarith
      have hexp : Real.exp (-((Rating.sum t1).mean - (Rating.sum t2).mean)
            * ((Rating.sum t1).mean - (Rating.sum t2).mean)
          / (2 * (((t1.length + t2.length : ℕ) : ℝ) * env.beta * env.beta
            + (Rating.sum t1).variance + (Rating.sum t2).variance))) ≤ 1 := by
        rw [Real.exp_le_one_iff]
        apply div_nonpos_of_nonpos_of_nonneg
        · rw [neg_mul]
          exact neg_nonpos.2 (mul_self_nonneg _)
        · linarith
      calc Real.sqrt _ * Real.exp _ ≤ 1 * 1 :=
            mul_le_mul hu hexp (Real.exp_pos _).le zero_le_one
        _ = 1 := by norm_num
  · intro g1 g2 hc2
    have hc2' : 0 < ((g1.length + g2.length : ℕ) : ℝ) * env.beta * env.beta
        + (Gen.combine g1).sigma * (Gen.combine g1).sigma
        + (Gen.combine g2).sigma * (Gen.combine g2).sigma := hc2
    have hv1 : 0 ≤ (Gen.combine g1).sigma * (Gen.combine g1).sigma := mul_self_nonneg _
    have hv2 : 0 ≤ (Gen.combine g2).sigma * (Gen.combine g2).sigma := mul_self_nonneg _
    simp only [Gen.quality]
    constructor
    · exact mul_nonneg (Real.sqrt_nonneg _) (Real.exp_pos _).le
    · have hu : Real.sqrt (((g1.length + g2.length : ℕ) : ℝ) * env.beta * env.beta
          / (((g1.length + g2.length : ℕ) : ℝ) * env.beta * env.beta
            + (Gen.combine g1).sigma * (Gen.combine g1).sigma
            + (Gen.combine g2).sigma * (Gen.combine g2).sigma)) ≤ 1 := by
        apply Real.sqrt_le_one.2
        rw [div_le_one hc2']
        linarith
      have hexp : Real.exp (-(((Gen.combine g1).mu - (Gen.combine g2).mu)
            * ((Gen.combine g1).mu - (Gen.combine g2).mu))
          / (2 * (((g1.length + g2.length : ℕ) : ℝ) * env.beta * env.beta
            + (Gen.combine g1).sigma * (Gen.combine g1).sigma
            + (Gen.combine g2).sigma * (Gen.combine g2).sigma))) ≤ 1 := by
        rw [Real.exp_le_one_iff]
        apply div_nonpos_of_nonpos_of_nonneg
        · exact neg_nonpos.2 (mul_self_nonneg _)
        · linarith
      calc Real.sqrt _ * Real.exp _ ≤ 1 * 1 :=
            mul_le_mul hu hexp (Real.exp_pos _).le zero_le_one
        _ = 1 := by norm_num

/-- C5 witness: concrete non-degenerate single-player teams. -/
theorem c5_witness :
    (0 ≤ TrueSkill.quality ⟨0, 0, 1, 0, 0⟩ [⟨0, 1⟩] [⟨0, 1⟩] ∧
      TrueSkill.quality ⟨0, 0, 1, 0, 0⟩ [⟨0, 1⟩] [⟨0, 1⟩] ≤ 1) ∧
    (0 ≤ Gen.quality ⟨0, 0, 1, 0, 0⟩ [⟨0, 1⟩] [⟨0, 1⟩] ∧
      Gen.quality ⟨0, 0, 1, 0, 0⟩ [⟨0, 1⟩] [⟨0, 1⟩] ≤ 1) := by
  constructor
  · apply (c5_quality_in_unit_interval ⟨0, 0, 1, 0, 0⟩).1 [⟨0, 1⟩] [⟨0, 1⟩]
    · show (0:ℝ) < TrueSkill.qc2 ⟨0, 0, 1, 0, 0⟩ [⟨0, 1⟩] [⟨0, 1⟩]
      simp [TrueSkill.qc2, Rating.sum]
      norm_num
    · intro r hr
      rw [List.mem_singleton] at hr
      subst hr
      norm_num
    · intro r hr
      rw [List.mem_singleton] at hr
      subst hr
      norm_num
  · apply (c5_quality_in_unit_interval ⟨0, 0, 1, 0, 0⟩).2 [⟨0, 1⟩] [⟨0, 1⟩]
    show (0:ℝ) < Gen.qc2 ⟨0, 0, 1, 0, 0⟩ [⟨0, 1⟩] [⟨0, 1⟩]
    simp [Gen.qc2, Gen.combine]
    positivity

/-- The win factors of the full environment at `ε = 0` agree with the
simplified ones. -/
theorem vw_zero_eq (t : ℝ) : TrueSkill.vw t 0 = SimpleTrueSkill.vw t := by
  simp [TrueSkill.vw, SimpleTrueSkill.vw]

/-- With `draw_probability = 0`, the full Win core is the simplified core. -/
theorem simple_core_eq_win (mu sigma beta tau : ℝ) (t1 t2 : List Rating) :
    SimpleTrueSkill.updateCore ⟨mu, sigma, beta, tau⟩ t1 t2 Score.Win
      = TrueSkill.updateCore ⟨mu, sigma, beta, tau, 0⟩ t1 t2 Score.Win := by
  simp only [SimpleTrueSkill.updateCore, TrueSkill.updateCore]
  rw [draw_margin_zero, zero_div, vw_zero_eq]

/-- C9: `SimpleTrueSkill::new(mu, sigma, beta, tau).update` produces exactly the
updated ratings of `TrueSkill::new(mu, sigma, beta, tau, 0).update` on the same
inputs, for every score in `{Win, Loss}` — the simplified variant is the full
variant with draw probability `0`. -/
theorem c9_simple_is_full_with_zero_draw_probability
    (mu sigma beta tau : ℝ) (t1 t2 : List Rating) (score : Score)
    (h : score ≠ Score.Draw) :
    SimpleTrueSkill.update ⟨mu, sigma, beta, tau⟩ t1 t2 score
      = TrueSkill.update ⟨mu, sigma, beta, tau, 0⟩ t1 t2 score := by
  cases score with
  | Win => rw [SimpleTrueSkill.simple_update_win, TrueSkill.update_win, simple_core_eq_win]
  | Loss => rw [SimpleTrueSkill.simple_update_loss, TrueSkill.update_loss, simple_core_eq_win]
  | Draw => exact absurd rfl h

/-- C9 witness: a concrete Win update. -/
theorem c9_witness :
    SimpleTrueSkill.update ⟨0, 1, 1, 0⟩ [⟨0, 1⟩] [⟨2, 3⟩] Score.Win
      = TrueSkill.update ⟨0, 1, 1, 0, 0⟩ [⟨0, 1⟩] [⟨2, 3⟩] Score.Win :=
  c9_simple_is_full_with_zero_draw_probability 0 1 1 0 [⟨0, 1⟩] [⟨2, 3⟩] Score.Win
    (by decide)

/-- C10 witness: two environments differing in everything but `beta`. -/
theorem c10_witness :
    TrueSkill.quality ⟨0, 1, 2, 3, 4⟩ [⟨1, 2⟩] [⟨3, 4⟩]
        = TrueSkill.quality ⟨5, 6, 2, 7, 8⟩ [⟨1, 2⟩] [⟨3, 4⟩] ∧
    Gen.quality ⟨0, 1, 2, 3, 4⟩ [⟨1, 2⟩] [⟨3, 4⟩]
        = Gen.quality ⟨5, 6, 2, 7, 8⟩ [⟨1, 2⟩] [⟨3, 4⟩] :=
  ⟨(c10_quality_depends_only_on_beta ⟨0, 1, 2, 3, 4⟩ ⟨5, 6, 2, 7, 8⟩ rfl).1 [⟨1, 2⟩] [⟨3, 4⟩],
   (c10_quality_depends_only_on_beta ⟨0, 1, 2, 3, 4⟩ ⟨5, 6, 2, 7, 8⟩ rfl).2 [⟨1, 2⟩] [⟨3, 4⟩]⟩

end
